import Mathlib

/-!
Verification development for the webminer repository (webcash server,
miner, and wallet).  The definitions below are shallow embeddings of the
C++ sources: pure functions are translated to Lean functions, the
stateful server and wallet are translated to explicit state-passing
functions, 64-bit machine integers are modelled as `Int` with explicit
wrap-around where the code can overflow, and fallible code returns
`Option` or `Except`.
-/

/-! ## Issuance schedule (src/server.h, src/webcashd.cc: WebcashEconomy) -/

/-- INITIAL_MINING_AMOUNT from src/webcashd.cc line 82 (equal to
k_initial_mining_amount in src/server.h line 68). -/
def INITIAL_MINING_AMOUNT : Nat := 20000000000000

/-- INITIAL_SUBSIDY_AMOUNT from src/webcashd.cc line 83 (equal to
k_initial_subsidy_amount in src/server.h line 69). -/
def INITIAL_SUBSIDY_AMOUNT : Nat := 1000000000000

/-- k_reports_per_epoch from src/server.h line 70; the literal 525000 in
src/webcashd.cc getEpoch/getMiningAmount/getSubsidyAmount. -/
def REPORTS_PER_EPOCH : Nat := 525000

/-- WebcashEconomy::getEpoch: `num_reports / 525000` (integer division). -/
def getEpoch (num_reports : Nat) : Nat := num_reports / REPORTS_PER_EPOCH

/-- WebcashEconomy::getMiningAmount: zero past epoch 63, otherwise the
initial amount shifted right by the epoch. -/
def getMiningAmount (num_reports : Nat) : Int :=
  if getEpoch num_reports > 63 then 0
  else ((INITIAL_MINING_AMOUNT >>> getEpoch num_reports : Nat) : Int)

/-- WebcashEconomy::getSubsidyAmount: zero past epoch 63, otherwise the
initial subsidy shifted right by the epoch. -/
def getSubsidyAmount (num_reports : Nat) : Int :=
  if getEpoch num_reports > 63 then 0
  else ((INITIAL_SUBSIDY_AMOUNT >>> getEpoch num_reports : Nat) : Int)

/-! ## Amount codec (src/webcash.cc) -/

/-- Largest value of a signed 64-bit integer
(`std::numeric_limits<int64_t>::max()`). -/
def int64max : Int := 9223372036854775807

/-- Numeric value of a decimal digit character (`*pos - '0'`). -/
def digitVal (c : Char) : Int := (c.toNat : Int) - 48

/-- Decimal digit characters of a natural number, most significant
first, as produced by `std::to_string` on a non-negative value.  Written
with structural fuel so that it evaluates by kernel reduction; the fuel
is always sufficient because `n / 10 < n` for `n > 0`. -/
def natCharsAux : Nat → Nat → List Char
  | 0, _ => []
  | fuel + 1, n =>
    if n = 0 then []
    else natCharsAux fuel (n / 10) ++ [Char.ofNat (48 + n % 10)]

/-- `std::to_string` of a natural number. -/
def natChars (n : Nat) : List Char :=
  if n = 0 then ['0'] else natCharsAux (n + 1) n

/-- Remove the trailing `'0'` characters of a string: the
`while (res.back() == '0') res.pop_back();` loop of
`to_string(const Amount&)`. -/
def stripZeros (s : List Char) : List Char :=
  (s.reverse.dropWhile (fun c => c = '0')).reverse

/-- to_string(const Amount&) from src/webcash.cc lines 120-135: fixed
precision with 8 fractional digits, trailing zero fractional digits and
the decimal point elided. -/
def toStringAmount (a : Int) : List Char :=
  let q : Nat := a.natAbs / 100000000
  let r : Nat := a.natAbs % 100000000
  let res := (if a < 0 then ['-'] else []) ++ natChars q
  if r = 0 then res
  else stripZeros (res ++ '.' :: (List.replicate (8 - (natChars r).length) '0' ++ natChars r))

/-- The integer-digit loop of Amount::parse (src/webcash.cc lines
67-74): consume decimal digits, accumulating into `i`, failing as soon
as the accumulator exceeds the int64 maximum. -/
def parseIntLoop : List Char → Int → Option (Int × List Char)
  | [], i => some (i, [])
  | c :: rest, i =>
    if c.isDigit then
      let j := 10 * i + digitVal c
      if int64max < j then none
      else parseIntLoop rest j
    else some (i, c :: rest)

/-- The fractional-digit loop of Amount::parse (src/webcash.cc lines
88-99): read up to 8 digits; any non-digit, or any character remaining
once 8 digits were read, is an error.  Returns the accumulator and the
number of fractional digits read. -/
def parseFracLoop : List Char → Nat → Int → Option (Int × Nat)
  | [], j, i => some (i, j)
  | c :: rest, j, i =>
    if j < 8 then
      if c.isDigit then parseFracLoop rest (j + 1) (10 * i + digitVal c)
      else none
    else none

/-- The value accumulated by the digit loops over a character list,
starting from accumulator `a`. -/
def charsVal (a : Int) (D : List Char) : Int :=
  D.foldl (fun i c => 10 * i + digitVal c) a

/-- The overflow checks of the integer-digit loop succeed along `D`
starting from accumulator `a`: every intermediate accumulator stays at
most `int64max`. -/
def accOk : List Char → Int → Prop
  | [], _ => True
  | c :: rest, a => 10 * a + digitVal c ≤ int64max ∧ accOk rest (10 * a + digitVal c)

/-- Quote handling of Amount::parse (src/webcash.cc lines 37-47): when
the string starts with a quote, scan backwards from the end to the
rightmost quote character; if that is the opening quote itself the
encoding is invalid, otherwise the content between the quotes (ignoring
anything after the closing quote) is parsed. -/
def stripQuote (s : List Char) : Option (List Char) :=
  let k := s.reverse.findIdx (fun c => c = '"')
  let idx := s.length - 1 - k
  if idx = 0 then none
  else some ((s.drop 1).take (idx - 1))

/-- Amount::parse after the sign has been handled (src/webcash.cc lines
58-113): a leading digit is required; a leading `'0'` must be the whole
integer part; then the integer loop, the optional fraction, scaling to
8 fractional digits, and a final overflow check. -/
def parseAfterSign (neg : Bool) (s : List Char) : Option Int :=
  match s with
  | [] => none
  | c0 :: tail0 =>
    if ¬ c0.isDigit then none
    else if c0 = '0' ∧ tail0 ≠ [] ∧ tail0.head? ≠ some '.' then none
    else
      match parseIntLoop s 0 with
      | none => none
      | some (i, rest) =>
        match rest with
        | [] =>
          let r := i * 10 ^ 8
          if int64max < r then none
          else some (if neg then -r else r)
        | '.' :: fracs =>
          match fracs with
          | [] => none
          | _ :: _ =>
            match parseFracLoop fracs 0 i with
            | none => none
            | some (i2, j) =>
              let r := i2 * 10 ^ (8 - j)
              if int64max < r then none
              else some (if neg then -r else r)
        | _ => none

/-- Sign handling of Amount::parse (src/webcash.cc lines 49-56): an
optional minus sign, which must not be the entire input. -/
def parseSigned (body : List Char) : Option Int :=
  if body.head? = some '-' then
    if body.tail = [] then none else parseAfterSign true body.tail
  else parseAfterSign false body

/-- Amount::parse from src/webcash.cc lines 23-114.  `none` models a
`false` return; `some v` models `true` with `i64 = v`. -/
def parseAmount (s : List Char) : Option Int :=
  if s = [] then none
  else if Char.ofNat 0 ∈ s then none
  else if s.head? = some '"' then
    match stripQuote s with
    | none => none
    | some body => parseSigned body
  else parseSigned s

/-! ## Claim-code serialization (src/webcash.cc lines 137-156) -/

/-- webcash_string from src/webcash.cc: negative amounts are clamped to
zero, then the claim code `e<amount>:<type>:<hex>` is emitted. -/
def webcashString (amount : Int) (type : List Char) (hex : List Char) : List Char :=
  let amount := if amount < 0 then 0 else amount
  'e' :: (toStringAmount amount ++ ':' :: (type ++ ':' :: hex))

/-- to_string(const SecretWebcash&): claim code with type "secret". -/
def secretToString (amount : Int) (sk : List Char) : List Char :=
  webcashString amount ['s', 'e', 'c', 'r', 'e', 't'] sk

/-! ## SHA-256 (src/crypto/sha256: the scalar transform, RFC 6234
constants), used by `PublicWebcash::PublicWebcash(const SecretWebcash&)`
in src/webcash.h lines 65-71.  Words are `Nat` reduced mod 2^32. -/

/-- 2^32, the word modulus. -/
def M32 : Nat := 4294967296

/-- Rotate a 32-bit word right by `n` bits. -/
def rotr32 (x n : Nat) : Nat := ((x >>> n) ||| (x <<< (32 - n))) % M32

/-- The SHA-256 Ch function. -/
def shaCh (x y z : Nat) : Nat := ((x &&& y) ^^^ ((x ^^^ 4294967295) &&& z)) % M32

/-- The SHA-256 Maj function. -/
def shaMaj (x y z : Nat) : Nat := ((x &&& y) ^^^ (x &&& z) ^^^ (y &&& z)) % M32

/-- The SHA-256 big sigma-0 function. -/
def bsig0 (x : Nat) : Nat := (rotr32 x 2 ^^^ rotr32 x 13 ^^^ rotr32 x 22) % M32

/-- The SHA-256 big sigma-1 function. -/
def bsig1 (x : Nat) : Nat := (rotr32 x 6 ^^^ rotr32 x 11 ^^^ rotr32 x 25) % M32

/-- The SHA-256 small sigma-0 function. -/
def ssig0 (x : Nat) : Nat := (rotr32 x 7 ^^^ rotr32 x 18 ^^^ (x >>> 3)) % M32

/-- The SHA-256 small sigma-1 function. -/
def ssig1 (x : Nat) : Nat := (rotr32 x 17 ^^^ rotr32 x 19 ^^^ (x >>> 10)) % M32

/-- The 64 SHA-256 round constants. -/
def shaK : List Nat :=
  [0x428a2f98, 0x71374491, 0xb5c0fbcf, 0xe9b5dba5, 0x3956c25b, 0x59f111f1, 0x923f82a4, 0xab1c5ed5] ++
  [0xd807aa98, 0x12835b01, 0x243185be, 0x550c7dc3, 0x72be5d74, 0x80deb1fe, 0x9bdc06a7, 0xc19bf174] ++
  [0xe49b69c1, 0xefbe4786, 0x0fc19dc6, 0x240ca1cc, 0x2de92c6f, 0x4a7484aa, 0x5cb0a9dc, 0x76f988da] ++
  [0x983e5152, 0xa831c66d, 0xb00327c8, 0xbf597fc7, 0xc6e00bf3, 0xd5a79147, 0x06ca6351, 0x14292967] ++
  [0x27b70a85, 0x2e1b2138, 0x4d2c6dfc, 0x53380d13, 0x650a7354, 0x766a0abb, 0x81c2c92e, 0x92722c85] ++
  [0xa2bfe8a1, 0xa81a664b, 0xc24b8b70, 0xc76c51a3, 0xd192e819, 0xd6990624, 0xf40e3585, 0x106aa070] ++
  [0x19a4c116, 0x1e376c08, 0x2748774c, 0x34b0bcb5, 0x391c0cb3, 0x4ed8aa4a, 0x5b9cca4f, 0x682e6ff3] ++
  [0x748f82ee, 0x78a5636f, 0x84c87814, 0x8cc70208, 0x90befffa, 0xa4506ceb, 0xbef9a3f7, 0xc67178f2]

/-- The eight working registers of the compression function. -/
structure ShaRegs where
  a : Nat
  b : Nat
  c : Nat
  d : Nat
  e : Nat
  f : Nat
  g : Nat
  h : Nat

/-- One round of the SHA-256 compression function. -/
def shaRound (r : ShaRegs) (kw : Nat × Nat) : ShaRegs :=
  let t1 := (r.h + bsig1 r.e + shaCh r.e r.f r.g + kw.1 + kw.2) % M32
  let t2 := (bsig0 r.a + shaMaj r.a r.b r.c) % M32
  ⟨(t1 + t2) % M32, r.a, r.b, r.c, (r.d + t1) % M32, r.e, r.f, r.g⟩

/-- Extend the 16-word message block to the 64-word schedule. -/
def extendSchedule : Nat → List Nat → List Nat
  | 0, w => w
  | k + 1, w =>
    let n := w.length
    let v := (ssig1 (w.getD (n - 2) 0) + w.getD (n - 7) 0 +
              ssig0 (w.getD (n - 15) 0) + w.getD (n - 16) 0) % M32
    extendSchedule k (w ++ [v])

/-- The SHA-256 compression function applied to one 16-word block. -/
def shaCompress (hs : List Nat) (block : List Nat) : List Nat :=
  let w := extendSchedule 48 block
  let init : ShaRegs := ⟨hs.getD 0 0, hs.getD 1 0, hs.getD 2 0, hs.getD 3 0,
                         hs.getD 4 0, hs.getD 5 0, hs.getD 6 0, hs.getD 7 0⟩
  let r := (shaK.zip w).foldl shaRound init
  [(hs.getD 0 0 + r.a) % M32, (hs.getD 1 0 + r.b) % M32, (hs.getD 2 0 + r.c) % M32,
   (hs.getD 3 0 + r.d) % M32, (hs.getD 4 0 + r.e) % M32, (hs.getD 5 0 + r.f) % M32,
   (hs.getD 6 0 + r.g) % M32, (hs.getD 7 0 + r.h) % M32]

/-- Group bytes into big-endian 32-bit words. -/
def bytesToWords : List Nat → List Nat
  | b0 :: b1 :: b2 :: b3 :: rest => (((b0 * 256 + b1) * 256 + b2) * 256 + b3) :: bytesToWords rest
  | _ => []

/-- Group words into 16-word blocks. -/
def wordsToBlocks : List Nat → List (List Nat)
  | w0 :: w1 :: w2 :: w3 :: w4 :: w5 :: w6 :: w7 :: w8 :: w9 :: w10 :: w11 :: w12 :: w13 :: w14 :: w15 :: rest =>
    [w0, w1, w2, w3, w4, w5, w6, w7, w8, w9, w10, w11, w12, w13, w14, w15] :: wordsToBlocks rest
  | _ => []

/-- The 8-byte big-endian encoding of the message bit length. -/
def lengthBytesBE (len : Nat) : List Nat :=
  let bits := len * 8
  [bits >>> 56 % 256, bits >>> 48 % 256, bits >>> 40 % 256, bits >>> 32 % 256,
   bits >>> 24 % 256, bits >>> 16 % 256, bits >>> 8 % 256, bits % 256]

/-- SHA-256 padding: a 0x80 byte, zeros to 56 mod 64, then the length. -/
def padMessage (msg : List Nat) : List Nat :=
  let l := msg.length
  let z := (119 - l % 64) % 64
  msg ++ 128 :: (List.replicate z 0 ++ lengthBytesBE l)

/-- The SHA-256 initial hash value. -/
def sha256Init : List Nat :=
  [0x6a09e667, 0xbb67ae85, 0x3c6ef372, 0xa54ff53a, 0x510e527f, 0x9b05688c, 0x1f83d9ab, 0x5be0cd19]

/-- Big-endian bytes of a 32-bit word. -/
def wordToBytes (w : Nat) : List Nat := [w >>> 24 % 256, w >>> 16 % 256, w >>> 8 % 256, w % 256]

/-- SHA-256 of a byte string, as a list of 32 bytes. -/
def sha256 (msg : List Nat) : List Nat :=
  (((wordsToBlocks (bytesToWords (padMessage msg))).foldl shaCompress sha256Init).map wordToBytes).flatten

/-- PublicWebcash::PublicWebcash(const SecretWebcash&) from src/webcash.h
lines 65-71: `pk` is the SHA-256 digest of the bytes of the secret key
string itself (`esk.sk.c_str(), esk.sk.size()`), i.e. of the ASCII bytes
of the hex representation, not of the decoded 32 raw bytes. -/
def publicPk (sk : List Char) : List Nat := sha256 (sk.map Char.toNat)

/-! ## Ledger state machine (src/webcashd.cc: WebcashEconomy state plus
the V1::replace and V1::miningReport handlers).

Hashes (uint256 public keys) are abstracted as `Nat`; amounts are `Int`.
The `std::map<uint256, ...>` containers are modelled as association
lists whose key lists are duplicate free (the map guarantees this); the
map iterates its entries in key order, so the request lists stand for
the key-ordered entry sequences produced by `parse_secrets`.  The
request-independent proof-of-work computation (base64 decoding, JSON
parsing of the preimage, SHA-256, `get_apparent_difficulty`) happens
before any state is touched, so the handler is modelled from the parsed
request on: `powHash` and `bits` are the hash of the preimage and its
apparent difficulty as computed by the stateless prelude. -/

/-- Wrap-around of C++ signed 64-bit addition (`Amount operator+`). -/
def i64wrap (x : Int) : Int := (x + 2 ^ 63) % 2 ^ 64 - 2 ^ 63

/-- Key list of an association list. -/
def keys (u : List (Nat × Int)) : List Nat := u.map Prod.fst

/-- Amount recorded for hash `h` (`std::map::find`). -/
def lookupAmount (u : List (Nat × Int)) (h : Nat) : Option Int :=
  (u.find? fun p => p.1 == h).map Prod.snd

/-- Remove the entry of hash `h` (`std::map::erase`). -/
def eraseKey (u : List (Nat × Int)) (h : Nat) : List (Nat × Int) :=
  u.filter fun p => p.1 != h

/-- Write `u[h] = a` (`std::map::operator[]` assignment). -/
def insertKey (u : List (Nat × Int)) (h : Nat) (a : Int) : List (Nat × Int) :=
  eraseKey u h ++ [(h, a)]

/-- `std::set::insert`. -/
def setInsert (s : List Nat) (h : Nat) : List Nat := if h ∈ s then s else s ++ [h]

/-- Sum of the recorded amounts. -/
def sumAmounts (u : List (Nat × Int)) : Int := (u.map Prod.snd).sum

/-- The running-total loops of V1::replace and V1::miningReport
(src/webcashd.cc lines 357-364, 374-381, 550-556):
`total += amount; if (total < 1 || amount < 1) return error("overflow")`.  -/
def sumWithCheck : List (Nat × Int) → Int → Option Int
  | [], acc => some acc
  | p :: rest, acc =>
    let acc2 := i64wrap (acc + p.2)
    if acc2 < 1 ∨ p.2 < 1 then none else sumWithCheck rest acc2

/-- The input-existence loop of V1::replace (src/webcashd.cc lines
395-403): each input hash must be present in the unspent map with
exactly the claimed amount. -/
def checkInputs (u : List (Nat × Int)) : List (Nat × Int) → Option String
  | [] => none
  | p :: rest =>
    match lookupAmount u p.1 with
    | none => some "missing"
    | some amt => if amt ≠ p.2 then some "wrong amount" else checkInputs u rest

/-- The output-novelty loops of V1::replace (error "reuse") and
V1::miningReport (error "output already exists"): no output hash may
already be in the unspent map. -/
def checkOutputs (u : List (Nat × Int)) (err : String) : List (Nat × Int) → Option String
  | [] => none
  | p :: rest =>
    if (lookupAmount u p.1).isSome then some err else checkOutputs u err rest

/-- The in-memory WebcashEconomy of src/webcashd.cc lines 78-123:
unspent outputs, spent hashes, the mining-report history (only the
received times matter to the embedded logic), the used proof-of-work
hashes, the cached difficulty, the report count, the genesis time, and
the length of the audit log. -/
structure ServerState where
  unspent : List (Nat × Int)
  spent : List Nat
  numReports : Nat
  reportTimes : List Int
  powHashes : List Nat
  difficulty : Nat
  genesis : Int
  auditLen : Nat
deriving DecidableEq

/-- The state of a freshly started server: empty maps, difficulty 28. -/
def emptyServer (genesis : Int) : ServerState := ⟨[], [], 0, [], [], 28, genesis, 0⟩

/-- A parsed /replace request. -/
structure ReplaceRequest where
  terms : Bool
  inputs : List (Nat × Int)
  outputs : List (Nat × Int)
deriving DecidableEq

/-- The commit phase of V1::replace (src/webcashd.cc lines 412-430):
inputs are erased from the unspent map and inserted into the spent set,
outputs are inserted into the unspent map, and an audit-log record is
appended. -/
def commitReplace (st : ServerState) (inputs outputs : List (Nat × Int)) : ServerState :=
  let u1 := inputs.foldl (fun u p => eraseKey u p.1) st.unspent
  let sp := inputs.foldl (fun s p => setInsert s p.1) st.spent
  let u2 := outputs.foldl (fun u p => insertKey u p.1 p.2) u1
  { st with unspent := u2, spent := sp, auditLen := st.auditLen + 1 }

/-- V1::replace from src/webcashd.cc lines 334-444, from the parsed
request on.  The duplicate-key failures model `parse_secrets` refusing
arrays with duplicate public hashes; the remaining checks and the
error strings follow the source in order. -/
def replaceExec (st : ServerState) (rq : ReplaceRequest) : Except String ServerState :=
  if ¬ rq.terms then .error "didn't accept terms"
  else if ¬ (keys rq.inputs).Nodup then .error "can't parse inputs"
  else
    match sumWithCheck rq.inputs 0 with
    | none => .error "overflow"
    | some total_in =>
      if ¬ (keys rq.outputs).Nodup then .error "can't parse inputs"
      else
        match sumWithCheck rq.outputs 0 with
        | none => .error "overflow"
        | some total_out =>
          if total_in ≠ total_out then .error "inbalance"
          else
            match checkInputs st.unspent rq.inputs with
            | some e => .error e
            | none =>
              match checkOutputs st.unspent "reuse" rq.outputs with
              | some e => .error e
              | none => .ok (commitReplace st rq.inputs rq.outputs)

/-- The JSON-RPC error response builder of src/webcashd.cc lines
172-186: HTTP 500 with body `{"status":"error","error":<err>}`, the
error string defaulting to "unknown" when empty. -/
structure HttpReply where
  status : Nat
  bodyStatus : String
  bodyError : Option String
deriving DecidableEq

/-- JSONRPCError from src/webcashd.cc. -/
def jsonRPCError (err : String) : HttpReply :=
  ⟨500, "error", some (if err = "" then "unknown" else err)⟩

/-- The /replace endpoint as reply plus post state: validation failures
return the JSON-RPC error reply and touch no state, success returns
HTTP 200 `{"status":"success"}` with the committed state. -/
def replaceHandler (st : ServerState) (rq : ReplaceRequest) : HttpReply × ServerState :=
  match replaceExec st rq with
  | .error e => (jsonRPCError e, st)
  | .ok st2 => (⟨200, "success", none⟩, st2)

/-- The subsidy loop of V1::miningReport (src/webcashd.cc lines
558-572): running total with overflow check, and every subsidy entry
must appear in the webcash map with the identical amount. -/
def subsidyLoop (webcash : List (Nat × Int)) : List (Nat × Int) → Int → Except String Int
  | [], acc => .ok acc
  | p :: rest, acc =>
    let acc2 := i64wrap (acc + p.2)
    if acc2 < 1 ∨ p.2 < 1 then .error "overflow"
    else
      match lookupAmount webcash p.1 with
      | none => .error "missing subsidy from webcash"
      | some amt =>
        if amt ≠ p.2 then .error "subsidy doesn't match webcash"
        else subsidyLoop webcash rest acc2

/-- The circulation loop of WebcashEconomy::getStats (src/webcashd.cc
lines 134-150): starting from the report (or expected-report) count,
full windows of 525000 reports are peeled off and accumulated at
`value = INITIAL_MINING_AMOUNT` (the loop in the source never halves
`value`), and the remainder is added at the same value.  Written with
structural fuel; the count itself is always sufficient fuel. -/
def circulationAux : Nat → Nat → Nat → Nat
  | 0, count, acc => acc + count * INITIAL_MINING_AMOUNT
  | f + 1, count, acc =>
    if 525000 < count then circulationAux f (count - 525000) (acc + INITIAL_MINING_AMOUNT * 525000)
    else acc + count * INITIAL_MINING_AMOUNT

/-- Total circulation computed from a report count. -/
def circulation (count : Nat) : Nat := circulationAux count count 0

/-- REPORTS_PER_INTERVAL: difficulty is re-examined every 128 reports
(`(state.mining_reports.size() & 0x7f) == 0`). -/
def REPORTS_PER_INTERVAL : Nat := 128

/-- LOOK_BACK_WINDOW: the look-back of the difficulty adjustment. -/
def LOOK_BACK_WINDOW : Nat := 128

/-- `++next_difficulty` on a C++ `unsigned`. -/
def incWrap32 (n : Nat) : Nat := (n + 1) % 4294967296

/-- `--next_difficulty` on a C++ `unsigned`. -/
def decWrap32 (n : Nat) : Nat := (n + 4294967295) % 4294967296

/-- The difficulty-adjustment kernel of V1::miningReport
(src/webcashd.cc lines 662-679) and api::RecordMiningReport
(src/server.cc lines 1253-1271): `next_difficulty` starts at the
current difficulty; every 128th report the actual elapsed duration is
compared with `look_back_window` target intervals of 10 seconds
(`look_back_window` is 127 when the report count is exactly 128,
otherwise 128); being early and at or ahead of the issuance curve
increments, being late and at or behind the curve decrements, and both
updates apply when both conditions hold.  Durations are in
nanoseconds. -/
def nextDifficultyKernel (current n : Nat) (actual : Int) (totalCirc expectedCirc : Nat) : Nat :=
  if n % REPORTS_PER_INTERVAL = 0 then
    let w : Nat := if n = 128 then LOOK_BACK_WINDOW - 1 else LOOK_BACK_WINDOW
    let expected : Int := (w : Int) * 10000000000
    let d1 := if actual ≤ expected ∧ expectedCirc ≤ totalCirc then incWrap32 current else current
    let d2 := if expected ≤ actual ∧ totalCirc ≤ expectedCirc then decWrap32 d1 else d1
    d2
  else current

/-- The difficulty adjustment applied to the report history: the
actual duration is measured from the report `look_back_window` places
before the just-pushed one (`rbegin() + look_back_window`), i.e. at
index `n - 1 - w` of the history whose length is `n`. -/
def nextDifficultyOfHistory (current : Nat) (times : List Int) (received : Int)
    (totalCirc expectedCirc : Nat) : Nat :=
  let n := times.length
  let w : Nat := if n = 128 then LOOK_BACK_WINDOW - 1 else LOOK_BACK_WINDOW
  let actual := received - times.getD (n - 1 - w) 0
  nextDifficultyKernel current n actual totalCirc expectedCirc

/-- A parsed /mining_report request.  `powHash` is the SHA-256 hash of
the base64 preimage and `bits` its apparent difficulty, both computed by
the stateless prelude of the handler; `committed` is the optional
"difficulty" field of the preimage; `received` is the server receipt
time in nanoseconds.  The optional "timestamp" field is omitted (its
only effect is an extra stateless rejection when more than two hours
from receipt). -/
structure MiningRequest where
  terms : Bool
  webcash : List (Nat × Int)
  subsidy : List (Nat × Int)
  committed : Option Nat
  powHash : Nat
  bits : Nat
  received : Int
deriving DecidableEq

/-- The commit phase of V1::miningReport (src/webcashd.cc lines
645-680): outputs are created, the proof-of-work hash and report are
recorded, the report count incremented, and the next difficulty
computed from the history (the stats use the incremented count). -/
def commitMining (st : ServerState) (rq : MiningRequest) : ServerState :=
  let u2 := rq.webcash.foldl (fun u p => insertKey u p.1 p.2) st.unspent
  let times := st.reportTimes ++ [rq.received]
  let nr := st.numReports + 1
  let tc := circulation nr
  let ec := circulation ((rq.received - st.genesis).toNat / 10000000000)
  let next := nextDifficultyOfHistory st.difficulty times rq.received tc ec
  { st with unspent := u2, powHashes := st.powHashes ++ [rq.powHash],
            reportTimes := times, numReports := nr, difficulty := next }

/-- V1::miningReport from src/webcashd.cc lines 473-698, from the
parsed request on; checks and error strings follow the source in
order. -/
def miningExec (st : ServerState) (rq : MiningRequest) : Except String ServerState :=
  if ¬ rq.terms then .error "didn't accept terms"
  else if ¬ (keys rq.webcash).Nodup then
    .error "'webcash' field in preimage needs to be array of webcash secrets"
  else if ¬ (keys rq.subsidy).Nodup then
    .error "'subsidy' field in preimage needs to be array of webcash secrets"
  else if rq.committed.any (fun d => decide (255 < d)) then
    .error "'difficulty' field in preimage is too high"
  else
    match sumWithCheck rq.webcash 0 with
    | none => .error "overflow"
    | some mining_amount =>
      match subsidyLoop rq.webcash rq.subsidy 0 with
      | .error e => .error e
      | .ok subsidy_amount =>
        if rq.webcash.length < rq.subsidy.length ∨ mining_amount < subsidy_amount then
          .error "internal server error"
        else if rq.bits < 25 then .error "difficulty too low"
        else if rq.committed.any (fun d => decide (rq.bits < d)) then
          .error "proof-of-work doesn't match committed difficulty"
        else if rq.committed.any (fun d => decide (d < st.difficulty)) then
          .error "committed difficulty is less than current difficulty"
        else if rq.bits < st.difficulty then
          .error "proof of work doesn't meet current difficulty"
        else if rq.powHash ∈ st.powHashes then .error "reused preimage"
        else
          match checkOutputs st.unspent "output already exists" rq.webcash with
          | some e => .error e
          | none =>
            if mining_amount ≠ getMiningAmount st.numReports then
              .error "outputs don't match allowed amount"
            else if subsidy_amount ≠ getSubsidyAmount st.numReports then
              .error "subsidy doesn't match required amount"
            else .ok (commitMining st rq)

/-- The committed server states reachable from the empty ledger by any
sequence of successful /replace and /mining_report operations. -/
inductive Reachable : ServerState → Prop
  | init (genesis : Int) : Reachable (emptyServer genesis)
  | replace {st st2 : ServerState} {rq : ReplaceRequest} :
      Reachable st → replaceExec st rq = .ok st2 → Reachable st2
  | mining {st st2 : ServerState} {rq : MiningRequest} :
      Reachable st → miningExec st rq = .ok st2 → Reachable st2

/-! ## Wallet (src/wallet.cc).

The sqlite database is modelled as the three row lists; row ids are
allocated as list length plus one (`sqlite3_last_insert_rowid` on the
fresh tables).  The recovery log is the list of appended lines.  The
CSPRNG (`GetStrongRandBytes`) output and the HTTP status of the
server's /replace response enter as arguments; the hashing of a secret
to its public hash (`PublicWebcash(sk)`) is passed as the function
argument `hashFn` since the wallet logic only forwards it.  Database
operations succeed except where a constraint in the schema fails (the
UNIQUE constraint on secret text). -/

/-- A secret webcash held by the wallet: hex secret and amount. -/
structure WSecret where
  sk : List Char
  amount : Int
deriving DecidableEq

/-- The claim code of a secret, `to_string(const SecretWebcash&)`. -/
def claimCode (w : WSecret) : List Char := secretToString w.amount w.sk

/-- HashType from src/wallet.cc lines 44-73. -/
inductive HashType
  | unused
  | payment
  | receive
  | change
  | mining
deriving DecidableEq

/-- get_hash_type from src/wallet.cc lines 207-222. -/
def get_hash_type (mine sweep : Bool) : HashType :=
  if ¬ mine ∧ ¬ sweep then .payment
  else if ¬ mine ∧ sweep then .receive
  else if mine ∧ ¬ sweep then .change
  else .mining

/-- to_string(HashType) from src/wallet.cc lines 187-205 (the source
spells "recieve"). -/
def hashTypeString : HashType → List Char
  | .unused => ['u', 'n', 'u', 's', 'e', 'd']
  | .payment => ['p', 'a', 'y']
  | .receive => ['r', 'e', 'c', 'i', 'e', 'v', 'e']
  | .change => ['c', 'h', 'a', 'n', 'g', 'e']
  | .mining => ['m', 'i', 'n', 'i', 'n', 'g']

/-- One line of the recovery log:
`<unix-seconds> <hash-type> <claim-code>`. -/
structure LogLine where
  timestamp : Int
  kind : List Char
  code : List Char
deriving DecidableEq

/-- A row of the wallet's `secret` table. -/
structure SecretRow where
  id : Nat
  timestamp : Int
  secret : List Char
  mine : Bool
  sweep : Bool
deriving DecidableEq

/-- A row of the wallet's `output` table. -/
structure OutputRow where
  id : Nat
  timestamp : Int
  hash : Nat
  secretId : Option Nat
  amount : Int
  spent : Bool
deriving DecidableEq

/-- The wallet's durable state: recovery-log lines plus the two row
tables (the `terms` table plays no part in the embedded operations). -/
structure WalletState where
  log : List LogLine
  secrets : List SecretRow
  outputs : List OutputRow
deriving DecidableEq

/-- The wallet with empty recovery log and empty tables. -/
def emptyWallet : WalletState := ⟨[], [], []⟩

/-- Wallet::AddSecretToWallet from src/wallet.cc lines 224-290: append
the `<timestamp> <kind> <claim-code>` line to the recovery log, then
insert the secret row; the insert fails (returning 0) when the UNIQUE
constraint on the secret text is violated, but the log line remains. -/
def addSecretToWallet (st : WalletState) (ts : Int) (sk : WSecret) (mine sweep : Bool) :
    Nat × WalletState :=
  let line : LogLine := ⟨ts, hashTypeString (get_hash_type mine sweep), claimCode sk⟩
  let st1 : WalletState := { st with log := st.log ++ [line] }
  if st.secrets.any (fun r => r.secret == sk.sk) then (0, st1)
  else
    let id := st.secrets.length + 1
    (id, { st1 with secrets := st.secrets ++ [⟨id, ts, sk.sk, mine, sweep⟩] })

/-- Wallet::AddOutputToWallet from src/wallet.cc lines 292-351: insert
an output row (no uniqueness constraint applies). -/
def addOutputToWallet (st : WalletState) (ts : Int) (hash : Nat) (amount : Int)
    (secretId : Option Nat) (spent : Bool) : Nat × WalletState :=
  let id := st.outputs.length + 1
  (id, { st with outputs := st.outputs ++ [⟨id, ts, hash, secretId, amount, spent⟩] })

/-- The in-memory WalletOutput object handed to ReplaceWebcash. -/
structure WOutObj where
  id : Nat
  hash : Nat
  amount : Int
  secret : Option (List Char)
  spent : Bool

/-- The in-memory WalletSecret object handed to ReplaceWebcash (only
the row id and the secret text are read by it). -/
structure WSecObj where
  id : Nat
  secret : List Char

/-- Wallet::ReplaceWebcash from src/wallet.cc lines 353-480:
validation of inputs (a missing secret or an already-spent input
aborts; a non-positive input amount only warns), validation of outputs
(a non-positive amount aborts), the balance check, the server call
(modelled by `serverStatus`; `none` is a transport failure), then on
HTTP 200 the input rows are marked spent and the output rows created;
the created (secret, output-id) pairs are returned. -/
def replaceWebcashW (st : WalletState) (ts : Int) (inputs : List WOutObj)
    (outputs : List (WSecObj × Int)) (serverStatus : Option Nat)
    (hashFn : List Char → Nat) : List (WSecObj × Nat) × WalletState :=
  if inputs.isEmpty then ([], st)
  else if inputs.any (fun w => w.secret.isNone) then ([], st)
  else if inputs.any (fun w => w.spent) then ([], st)
  else
    let total_in := inputs.foldl (fun acc w => i64wrap (acc + w.amount)) 0
    if outputs.isEmpty then ([], st)
    else if outputs.any (fun o => decide (o.2 < 1)) then ([], st)
    else
      let total_out := outputs.foldl (fun acc o => i64wrap (acc + o.2)) 0
      if total_in ≠ total_out then ([], st)
      else
        match serverStatus with
        | none => ([], st)
        | some status =>
          if status ≠ 200 then ([], st)
          else
            let marked := st.outputs.map fun r =>
              if r.id ∈ inputs.map WOutObj.id then { r with spent := true } else r
            let st1 : WalletState := { st with outputs := marked }
            let step := fun (acc : List (WSecObj × Nat) × WalletState) (o : WSecObj × Int) =>
              let r2 := addOutputToWallet acc.2 ts (hashFn o.1.secret) o.2 (some o.1.id) false
              (acc.1 ++ [(o.1, r2.1)], r2.2)
            outputs.foldl step ([], st1)

/-- Wallet::Insert from src/wallet.cc lines 482-556: log and store the
incoming secret (sweep = true), create its unspent output row, generate
a change secret of the identical amount (`changeSk` stands for the hex
encoding of the 32 CSPRNG bytes), log and store it (mine = true,
sweep = false), then sweep via ReplaceWebcash with one input and one
output; true is returned only when the replacement produced exactly one
output record. -/
def walletInsert (st : WalletState) (now : Int) (sk : WSecret) (mine : Bool)
    (changeSk : List Char) (serverStatus : Option Nat) (hashFn : List Char → Nat) :
    Bool × WalletState :=
  let r1 := addSecretToWallet st now sk mine true
  if r1.1 = 0 then (false, r1.2)
  else
    let pkHash := hashFn sk.sk
    let r2 := addOutputToWallet r1.2 now pkHash sk.amount (some r1.1) false
    if r2.1 = 0 then (false, r2.2)
    else
      let change : WSecret := ⟨changeSk, sk.amount⟩
      let r3 := addSecretToWallet r2.2 now change true false
      if r3.1 = 0 then (false, r3.2)
      else
        let woutput : WOutObj := ⟨r2.1, pkHash, sk.amount, some sk.sk, false⟩
        let r4 := replaceWebcashW r3.2 now [woutput] [(⟨r3.1, changeSk⟩, sk.amount)]
          serverStatus hashFn
        if r4.1.length = 1 then (true, r4.2) else (false, r4.2)

/-! ## Miner submission worker (src/webminer.cc update_thread_func,
lines 292-379): handling of the HTTP response to a mining-report
submission. -/

/-- A solved proof-of-work as queued by the mining threads. -/
structure Solution where
  preimage : String
  hashHex : String
  webcash : String
deriving DecidableEq

/-- The HTTP response to the mining-report POST, as far as the worker
inspects it: the status code, whether the body parsed as a JSON object,
its "error" field if any, and its "difficulty_target" field if any
numeric one is present. -/
structure MinerResponse where
  status : Nat
  bodyObject : Bool
  errorField : Option String
  difficultyTarget : Option Nat
deriving DecidableEq

/-- The worker-visible state touched by response handling: the orphan
log, the fallback webcash log, the cached difficulty, and the next
scheduled settings fetch. -/
structure WorkerState where
  orphanLog : List Solution
  webcashLog : List String
  difficulty : Nat
  nextSettingsFetch : Int
deriving DecidableEq

/-- The benign-reject test of src/webminer.cc line 350: HTTP 400 whose
JSON body has an "error" field equal to exactly
"Didn't use a new secret value.". -/
def benignReject (r : MinerResponse) : Prop :=
  r.status = 400 ∧ r.bodyObject = true ∧ r.errorField = some "Didn't use a new secret value."

instance (r : MinerResponse) : Decidable (benignReject r) := by
  unfold benignReject
  infer_instance

/-- Response handling of update_thread_func (src/webminer.cc lines
344-378): any non-200 response that is not the benign reject is
appended to the orphan log and forces an immediate settings refetch
(`g_next_settings_fetch = absl::Now()`); otherwise the cached
difficulty is updated from the response's "difficulty_target" field
and the kept webcash is inserted into the wallet (`walletOk` is that
insertion's result), falling back to the webcash log on failure. -/
def handleResponse (ws : WorkerState) (soln : Solution) (now : Int) (r : MinerResponse)
    (walletOk : Bool) : WorkerState :=
  if r.status ≠ 200 ∧ ¬ benignReject r then
    { ws with nextSettingsFetch := now, orphanLog := ws.orphanLog ++ [soln] }
  else
    let ws1 := match r.difficultyTarget with
      | some b => { ws with difficulty := b }
      | none => ws
    if walletOk then ws1 else { ws1 with webcashLog := ws1.webcashLog ++ [soln.webcash] }

deriving instance DecidableEq for Except

/-! ## Concrete instances used by counterexamples and examples -/

/-- The example secret key of the specification:
"f9328d45619ccc052cd96c9408e322fd2ad60adc85d303e771f6b153ab2ed089". -/
def exampleSk : List Char :=
  "f9328d45619ccc052cd96c9408e322fd2ad60adc85d303e771f6b153ab2ed089".data

/-- The public hash the specification expects for `exampleSk`, i.e. the
bytes of 9a8a1ac24dd10f243c9ac05eb7093d130a032d5a31ae648014a33f8e02d47fcf. -/
def exampleDigest : List Nat :=
  [0x9a, 0x8a, 0x1a, 0xc2, 0x4d, 0xd1, 0x0f, 0x24, 0x3c, 0x9a, 0xc0, 0x5e, 0xb7, 0x09, 0x3d, 0x13,
   0x0a, 0x03, 0x2d, 0x5a, 0x31, 0xae, 0x64, 0x80, 0x14, 0xa3, 0x3f, 0x8e, 0x02, 0xd4, 0x7f, 0xcf]

/-- The 32 raw bytes obtained by hex-decoding `exampleSk` (what the pk
derivation would hash if it decoded the hex first, which it does not). -/
def exampleRawSkBytes : List Nat :=
  [0xf9, 0x32, 0x8d, 0x45, 0x61, 0x9c, 0xcc, 0x05, 0x2c, 0xd9, 0x6c, 0x94, 0x08, 0xe3, 0x22, 0xfd,
   0x2a, 0xd6, 0x0a, 0xdc, 0x85, 0xd3, 0x03, 0xe7, 0x71, 0xf6, 0xb1, 0x53, 0xab, 0x2e, 0xd0, 0x89]

/-- A mining report creating outputs with hashes 1 (the kept amount,
190000 webcash) and 2 (the subsidy, 10000 webcash) at the initial
difficulty. -/
def C2_rq1 : MiningRequest :=
  ⟨true, [(1, 19000000000000), (2, 1000000000000)], [(2, 1000000000000)], none, 11, 28, 0⟩

/-- A replace consuming the output with hash 1 for a new output with
hash 3 of the same amount. -/
def C2_rq2 : ReplaceRequest := ⟨true, [(1, 19000000000000)], [(3, 19000000000000)]⟩

/-- A replace consuming the output with hash 3 and re-creating an
output with the previously spent hash 1. -/
def C2_rq3 : ReplaceRequest := ⟨true, [(3, 19000000000000)], [(1, 19000000000000)]⟩

/-- The state after `C2_rq1` on the empty ledger. -/
def C2_st1 : ServerState :=
  ⟨[(1, 19000000000000), (2, 1000000000000)], [], 1, [0], [11], 28, 0, 0⟩

/-- The state after `C2_rq2` on `C2_st1`. -/
def C2_st2 : ServerState :=
  ⟨[(2, 1000000000000), (3, 19000000000000)], [1], 1, [0], [11], 28, 0, 1⟩

/-- The state after `C2_rq3` on `C2_st2`: hash 1 is recorded both as
unspent and as spent. -/
def C2_badState : ServerState :=
  ⟨[(2, 1000000000000), (1, 19000000000000)], [1, 3], 1, [0], [11], 28, 0, 2⟩

/-- A ledger holding a single unspent output with hash 1 and amount 5
(in raw units). -/
def C7_state : ServerState := ⟨[(1, 5)], [], 0, [], [], 28, 0, 0⟩

/-- A replace request containing the secret with hash 1 in both the
input and the output array, with that input currently unspent, but also
a second input (hash 2) that does not exist in the ledger. -/
def C7_rq : ReplaceRequest := ⟨true, [(1, 5), (2, 5)], [(1, 5), (3, 5)]⟩

/-- Unspent and spent hash sets are disjoint in a server state. -/
def DisjointUS (st : ServerState) : Prop :=
  ∀ h ∈ keys st.unspent, h ∉ st.spent

/-! ## Helper lemmas for the amount codec -/

theorem charsVal_nil (a : Int) : charsVal a [] = a := rfl

theorem charsVal_cons (a : Int) (c : Char) (D : List Char) :
    charsVal a (c :: D) = charsVal (10 * a + digitVal c) D := rfl

theorem charsVal_append (a : Int) (D E : List Char) :
    charsVal a (D ++ E) = charsVal (charsVal a D) E :=
  List.foldl_append _ _ _ _

theorem charsVal_linear (D : List Char) :
    ∀ a : Int, charsVal a D = a * 10 ^ D.length + charsVal 0 D := by
  induction D with
  | nil => intro a; simp [charsVal_nil]
  | cons c D ih =>
    intro a
    rw [charsVal_cons, charsVal_cons, ih (10 * a + digitVal c), ih (10 * 0 + digitVal c)]
    simp only [List.length_cons]
    push_cast
    ring

theorem charsVal_replicate_zero (z : Nat) :
    ∀ a : Int, charsVal a (List.replicate z '0') = a * 10 ^ z := by
  induction z with
  | zero => intro a; simp [charsVal_nil]
  | succ z ih =>
    intro a
    rw [List.replicate_succ, charsVal_cons, ih]
    have : digitVal '0' = 0 := by decide
    rw [this]
    ring

theorem digit_char_isDigit (d : Nat) (hd : d < 10) : (Char.ofNat (48 + d)).isDigit = true := by
  interval_cases d <;> decide

theorem digit_char_val (d : Nat) (hd : d < 10) : digitVal (Char.ofNat (48 + d)) = (d : Int) := by
  interval_cases d <;> decide

theorem digit_char_zero_iff (d : Nat) (hd : d < 10) : Char.ofNat (48 + d) = '0' ↔ d = 0 := by
  interval_cases d <;> decide

theorem isDigit_ne_special (c : Char) (h : c.isDigit = true) :
    c ≠ '-' ∧ c ≠ '.' ∧ c ≠ '"' ∧ c ≠ Char.ofNat 0 := by
  refine ⟨?_, ?_, ?_, ?_⟩ <;> rintro rfl <;> exact absurd h (by decide)

theorem natCharsAux_eq (fuel : Nat) :
    ∀ n : Nat, n ≤ fuel →
      natCharsAux fuel n = ((Nat.digits 10 n).map fun d => Char.ofNat (48 + d)).reverse := by
  induction fuel with
  | zero =>
    intro n hn
    interval_cases n
    simp [natCharsAux]
  | succ fuel ih =>
    intro n hn
    rw [natCharsAux]
    by_cases h0 : n = 0
    · simp [h0]
    · rw [if_neg h0]
      have hdiv : n / 10 ≤ fuel := by
        have : n / 10 < n := Nat.div_lt_self (Nat.pos_of_ne_zero h0) (by norm_num)
        omega
      rw [ih (n / 10) hdiv, Nat.digits_def' (by norm_num : (1:Nat) < 10) (Nat.pos_of_ne_zero h0)]
      simp

theorem natChars_eq (n : Nat) (h : n ≠ 0) :
    natChars n = ((Nat.digits 10 n).map fun d => Char.ofNat (48 + d)).reverse := by
  rw [natChars, if_neg h, natCharsAux_eq (n + 1) n (by omega)]

theorem natChars_decomp (n : Nat) (h : 10 ≤ n) :
    natChars n = natChars (n / 10) ++ [Char.ofNat (48 + n % 10)] := by
  have h0 : n ≠ 0 := by omega
  have h10 : n / 10 ≠ 0 := by
    have := Nat.div_le_div_right (c := 10) h
    simpa using fun hc => by omega
  rw [natChars_eq n h0, natChars_eq (n / 10) h10,
    Nat.digits_def' (by norm_num : (1:Nat) < 10) (Nat.pos_of_ne_zero h0)]
  simp

theorem natChars_single (n : Nat) (h1 : n ≠ 0) (h2 : n < 10) :
    natChars n = [Char.ofNat (48 + n)] := by
  rw [natChars_eq n h1, Nat.digits_of_lt 10 n h1 h2]
  simp

theorem natChars_zero : natChars 0 = ['0'] := rfl

theorem natChars_ne_nil (n : Nat) : natChars n ≠ [] := by
  by_cases h : n = 0
  · subst h; decide
  · rw [natChars_eq n h]
    simp [Nat.digits_ne_nil_iff_ne_zero, h]

theorem natChars_all_digits (n : Nat) : ∀ c ∈ natChars n, c.isDigit = true := by
  by_cases h : n = 0
  · subst h; decide
  · rw [natChars_eq n h]
    intro c hc
    rw [List.mem_reverse, List.mem_map] at hc
    obtain ⟨d, hd, rfl⟩ := hc
    exact digit_char_isDigit d (Nat.digits_lt_base (by norm_num) hd)

theorem natChars_val (n : Nat) : charsVal 0 (natChars n) = (n : Int) := by
  induction n using Nat.strong_induction_on with
  | _ n ih =>
    by_cases h0 : n = 0
    · subst h0; decide
    · by_cases h10 : n < 10
      · rw [natChars_single n h0 h10, charsVal_cons, charsVal_nil, digit_char_val n h10]
        simp
      · push_neg at h10
        rw [natChars_decomp n h10, charsVal_append,
          ih (n / 10) (Nat.div_lt_self (Nat.pos_of_ne_zero h0) (by norm_num)),
          charsVal_cons, charsVal_nil, digit_char_val (n % 10) (Nat.mod_lt n (by norm_num))]
        have := Nat.div_add_mod n 10
        push_cast
        omega

theorem natChars_head_ne_zero (n : Nat) (h : n ≠ 0) :
    ∀ c, (natChars n).head? = some c → c ≠ '0' := by
  intro c hc
  rw [natChars_eq n h, List.head?_reverse, List.getLast?_map] at hc
  have hne : Nat.digits 10 n ≠ [] := Nat.digits_ne_nil_iff_ne_zero.mpr h
  rw [List.getLast?_eq_getLast _ hne] at hc
  have hc2 : Char.ofNat (48 + (Nat.digits 10 n).getLast hne) = c := Option.some.inj hc
  have hlast := Nat.getLast_digit_ne_zero 10 h
  have hmem : (Nat.digits 10 n).getLast hne ∈ Nat.digits 10 n := List.getLast_mem hne
  have hlt : (Nat.digits 10 n).getLast hne < 10 := Nat.digits_lt_base (by norm_num) hmem
  intro hzero
  rw [← hc2] at hzero
  exact hlast ((digit_char_zero_iff _ hlt).mp hzero)

theorem natChars_length_le (n k : Nat) (hn : n < 10 ^ k) (hk : 1 ≤ k) :
    (natChars n).length ≤ k := by
  by_cases h0 : n = 0
  · subst h0; simpa [natChars_zero] using hk
  · rw [natChars_eq n h0]
    simp only [List.length_reverse, List.length_map]
    have h1 := Nat.base_pow_length_digits_le 10 n (by norm_num) h0
    have h2 : 10 ^ (Nat.digits 10 n).length ≤ 10 * n := h1
    have h3 : 10 * n < 10 ^ (k + 1) := by
      rw [pow_succ, mul_comm (10 ^ k) 10]
      exact (mul_lt_mul_left (by norm_num)).mpr hn
    have h4 : 10 ^ (Nat.digits 10 n).length < 10 ^ (k + 1) := lt_of_le_of_lt h2 h3
    have := (Nat.pow_lt_pow_iff_right (by norm_num : 1 < 10)).mp h4
    omega

theorem accOk_append (D : List Char) :
    ∀ (E : List Char) (a : Int), accOk (D ++ E) a ↔ accOk D a ∧ accOk E (charsVal a D) := by
  induction D with
  | nil => intro E a; simp [accOk, charsVal_nil]
  | cons c D ih =>
    intro E a
    simp only [List.cons_append, accOk, charsVal_cons, List.append_eq]
    rw [ih E (10 * a + digitVal c)]
    tauto

theorem natChars_accOk (n : Nat) (h : (n : Int) ≤ int64max) : accOk (natChars n) 0 := by
  induction n using Nat.strong_induction_on with
  | _ n ih =>
    by_cases h0 : n = 0
    · subst h0; exact ⟨by decide, trivial⟩
    · by_cases h10 : n < 10
      · rw [natChars_single n h0 h10]
        refine ⟨?_, trivial⟩
        rw [digit_char_val n h10]
        omega
      · push_neg at h10
        rw [natChars_decomp n h10, accOk_append]
        have hdivlt : n / 10 < n := Nat.div_lt_self (Nat.pos_of_ne_zero h0) (by norm_num)
        have hdivle : ((n / 10 : Nat) : Int) ≤ int64max := by
          have : (n / 10 : Nat) ≤ n := Nat.div_le_self n 10
          have := Int.ofNat_le.mpr this
          omega
        refine ⟨ih (n / 10) hdivlt hdivle, ?_, trivial⟩
        rw [natChars_val, digit_char_val (n % 10) (Nat.mod_lt n (by norm_num))]
        have := Nat.div_add_mod n 10
        push_cast
        omega

theorem parseIntLoop_spec (D : List Char) :
    ∀ (rest : List Char) (a : Int), (∀ c ∈ D, c.isDigit = true) → accOk D a →
      (∀ c, rest.head? = some c → c.isDigit = false) →
      parseIntLoop (D ++ rest) a = some (charsVal a D, rest) := by
  induction D with
  | nil =>
    intro rest a _ _ hrest
    cases rest with
    | nil => rfl
    | cons c r =>
      rw [List.nil_append, parseIntLoop, if_neg]
      · rfl
      · simp [hrest c rfl]
  | cons c D ih =>
    intro rest a hdig hacc hrest
    rw [List.cons_append, parseIntLoop, if_pos (hdig c (by simp)), if_neg (by
      have := hacc.1
      omega)]
    rw [charsVal_cons]
    exact ih rest (10 * a + digitVal c) (fun x hx => hdig x (by simp [hx])) hacc.2 hrest

theorem parseFracLoop_spec (F : List Char) :
    ∀ (j : Nat) (i : Int), (∀ c ∈ F, c.isDigit = true) → j + F.length ≤ 8 →
      parseFracLoop F j i = some (charsVal i F, j + F.length) := by
  induction F with
  | nil => intro j i _ _; simp [parseFracLoop, charsVal_nil]
  | cons c F ih =>
    intro j i hdig hlen
    rw [parseFracLoop, if_pos (by simp at hlen; omega), if_pos (hdig c (by simp))]
    rw [charsVal_cons, ih (j + 1) (10 * i + digitVal c) (fun x hx => hdig x (by simp [hx]))
      (by simp at hlen ⊢; omega)]
    simp at hlen ⊢
    omega

theorem dropWhile_append_of_ne_nil (p : Char → Bool) (A B : List Char)
    (h : A.dropWhile p ≠ []) : (A ++ B).dropWhile p = A.dropWhile p ++ B := by
  induction A with
  | nil => simp [List.dropWhile] at h
  | cons c A ih =>
    by_cases hc : p c
    · rw [List.cons_append, List.dropWhile_cons_of_pos hc, List.dropWhile_cons_of_pos hc]
      apply ih
      rwa [List.dropWhile_cons_of_pos hc] at h
    · rw [List.cons_append, List.dropWhile_cons_of_neg (by simpa using hc),
        List.dropWhile_cons_of_neg (by simpa using hc), List.cons_append]

theorem stripZeros_append (X Y : List Char) (h : stripZeros Y ≠ []) :
    stripZeros (X ++ Y) = X ++ stripZeros Y := by
  unfold stripZeros at h ⊢
  rw [List.reverse_append, dropWhile_append_of_ne_nil _ _ _ (by
    intro hc
    exact h (by rw [hc]; rfl)), List.reverse_append, List.reverse_reverse]

theorem stripZeros_decomp (L : List Char) :
    ∃ z : Nat, L = stripZeros L ++ List.replicate z '0' := by
  induction L using List.reverseRecOn with
  | nil => exact ⟨0, rfl⟩
  | append_singleton M c ih =>
    by_cases hc : c = '0'
    · subst hc
      obtain ⟨z, hz⟩ := ih
      have hstep : stripZeros (M ++ ['0']) = stripZeros M := by
        unfold stripZeros
        rw [List.reverse_append]
        simp [List.dropWhile_cons_of_pos]
      refine ⟨z + 1, ?_⟩
      rw [hstep]
      conv_lhs => rw [hz]
      rw [List.append_assoc, ← List.replicate_succ']
    · have hstep : stripZeros (M ++ [c]) = M ++ [c] := by
        unfold stripZeros
        rw [List.reverse_append]
        simp only [List.reverse_singleton, List.singleton_append]
        rw [List.dropWhile_cons_of_neg (by simpa using hc)]
        simp
      exact ⟨0, by rw [hstep, List.replicate_zero, List.append_nil]⟩

theorem stripZeros_getLast (L : List Char) :
    ∀ c, (stripZeros L).getLast? = some c → c ≠ '0' := by
  intro c hc
  unfold stripZeros at hc
  rw [List.getLast?_reverse] at hc
  have := List.head?_dropWhile_not (fun x => x = '0') L.reverse
  rw [hc] at this
  simpa using this

theorem stripZeros_ne_nil (L : List Char) (c : Char) (hc : c ∈ L) (h : c ≠ '0') :
    stripZeros L ≠ [] := by
  intro hnil
  unfold stripZeros at hnil
  rw [List.reverse_eq_nil_iff] at hnil
  have := List.dropWhile_eq_nil_iff.mp hnil c (by simpa using hc)
  simp at this
  exact h this

theorem stripZeros_past_dot (X P : List Char) (hP : stripZeros P ≠ []) :
    stripZeros (X ++ '.' :: P) = X ++ '.' :: stripZeros P := by
  have : X ++ '.' :: P = (X ++ ['.']) ++ P := by simp
  rw [this, stripZeros_append _ _ hP]
  simp

theorem getLast?_append_right (X Y : List Char) (h : Y ≠ []) :
    (X ++ Y).getLast? = Y.getLast? := by
  rw [← List.head?_reverse, ← List.head?_reverse, List.reverse_append]
  cases hY : Y.reverse with
  | nil => exact absurd (by simpa using hY) h
  | cons c t => rfl

theorem toStringAmount_r0 (a : Int) (h : ¬ a < 0) (hr : a.natAbs % 100000000 = 0) :
    toStringAmount a = natChars (a.natAbs / 100000000) := by
  unfold toStringAmount
  simp only [if_neg h, List.nil_append, if_pos hr]

theorem fracDecomp (r : Nat) (h1 : r ≠ 0) :
    ∃ F z, List.replicate (8 - (natChars r).length) '0' ++ natChars r = F ++ List.replicate z '0' ∧
      stripZeros (List.replicate (8 - (natChars r).length) '0' ++ natChars r) = F ∧
      (∀ c ∈ F, c.isDigit = true) ∧ F ≠ [] ∧
      (r < 100000000 → F.length + z = 8) ∧
      charsVal 0 F * 10 ^ z = (r : Int) ∧ (∀ c, F.getLast? = some c → c ≠ '0') := by
  set P := List.replicate (8 - (natChars r).length) '0' ++ natChars r with hP
  obtain ⟨z, hz⟩ := stripZeros_decomp P
  have hPdig : ∀ c ∈ P, c.isDigit = true := by
    intro c hc
    rcases List.mem_append.mp hc with hmem | hmem
    · have := List.eq_of_mem_replicate hmem
      subst this; decide
    · exact natChars_all_digits r c hmem
  refine ⟨stripZeros P, z, hz, rfl, ?_, ?_, ?_, ?_, stripZeros_getLast P⟩
  · intro c hc
    exact hPdig c (by rw [hz]; exact List.mem_append_left _ hc)
  · obtain ⟨c0, t0, hct⟩ := List.exists_cons_of_ne_nil (natChars_ne_nil r)
    apply stripZeros_ne_nil P c0
    · rw [hP, hct]
      exact List.mem_append_right _ (by simp)
    · exact natChars_head_ne_zero r h1 c0 (by rw [hct]; rfl)
  · intro h2
    have hlenP : P.length = 8 := by
      rw [hP]
      simp only [List.length_append, List.length_replicate]
      have := natChars_length_le r 8 h2 (by norm_num)
      omega
    have := congrArg List.length hz
    simp only [List.length_append, List.length_replicate] at this
    omega
  · have hval : charsVal 0 P = (r : Int) := by
      rw [hP, charsVal_append, charsVal_replicate_zero]
      simpa using natChars_val r
    rw [hz, charsVal_append, charsVal_replicate_zero] at hval
    exact hval

theorem toStringAmount_shape (a : Int) (hr : a.natAbs % 100000000 ≠ 0) :
    ∃ F z, toStringAmount a =
        ((if a < 0 then ['-'] else []) ++ natChars (a.natAbs / 100000000)) ++ '.' :: F ∧
      (∀ c ∈ F, c.isDigit = true) ∧ F ≠ [] ∧
      (F.length + z = 8) ∧
      charsVal 0 F * 10 ^ z = ((a.natAbs % 100000000 : Nat) : Int) ∧
      (∀ c, F.getLast? = some c → c ≠ '0') := by
  obtain ⟨F, z, hFz, hstrip, hdig, hne, hlen, hval, hlast⟩ := fracDecomp (a.natAbs % 100000000) hr
  refine ⟨F, z, ?_, hdig, hne, hlen (Nat.mod_lt _ (by norm_num)), hval, hlast⟩
  unfold toStringAmount
  simp only [if_neg hr]
  rw [stripZeros_past_dot _ _ (by rw [hstrip]; exact hne), hstrip]

theorem toStringAmount_chars_nonneg (a : Int) (h0 : 0 ≤ a) :
    ∀ c ∈ toStringAmount a, c.isDigit = true ∨ c = '.' := by
  have hnn : ¬ a < 0 := not_lt.mpr h0
  by_cases hr : a.natAbs % 100000000 = 0
  · rw [toStringAmount_r0 a hnn hr]
    intro c hc
    exact Or.inl (natChars_all_digits _ c hc)
  · obtain ⟨F, z, hshape, hdig, _, _, _, _⟩ := toStringAmount_shape a hr
    rw [hshape]
    intro c hc
    simp only [if_neg hnn, List.nil_append] at hc
    rcases List.mem_append.mp hc with hmem | hmem
    · exact Or.inl (natChars_all_digits _ c hmem)
    · rcases List.mem_cons.mp hmem with h | h
      · exact Or.inr h
      · exact Or.inl (hdig c h)

theorem toStringAmount_ne_nil (a : Int) : toStringAmount a ≠ [] := by
  by_cases hr : a.natAbs % 100000000 = 0
  · by_cases hn : a < 0
    · unfold toStringAmount
      simp only [if_pos hn, if_pos hr]
      simp
    · rw [toStringAmount_r0 a hn hr]
      exact natChars_ne_nil _
  · obtain ⟨F, z, hshape, _, _, _, _, _⟩ := toStringAmount_shape a hr
    rw [hshape]
    simp

theorem parseAmount_reduce (s : List Char) (hne : s ≠ [])
    (hchars : ∀ c ∈ s, c.isDigit = true ∨ c = '.') : parseAmount s = parseSigned s := by
  unfold parseAmount
  rw [if_neg hne, if_neg ?hnul, if_neg ?hquote]
  case hnul =>
    intro hmem
    rcases hchars _ hmem with h | h
    · exact absurd h (by decide)
    · exact absurd h (by decide)
  case hquote =>
    intro hhead
    cases s with
    | nil => exact hne rfl
    | cons c t =>
      have : c = '"' := by simpa using hhead
      subst this
      rcases hchars '"' (List.mem_cons_self _ _) with h | h
      · exact absurd h (by decide)
      · exact absurd h (by decide)

theorem parseSigned_reduce (s : List Char)
    (hchars : ∀ c ∈ s, c.isDigit = true ∨ c = '.') : parseSigned s = parseAfterSign false s := by
  unfold parseSigned
  rw [if_neg ?hminus]
  case hminus =>
    intro hhead
    cases s with
    | nil => simp at hhead
    | cons c t =>
      have : c = '-' := by simpa using hhead
      subst this
      rcases hchars '-' (List.mem_cons_self _ _) with h | h
      · exact absurd h (by decide)
      · exact absurd h (by decide)

theorem parseAfterSign_leading_ok (q : Nat) (c0 : Char) (t0 rest : List Char)
    (hct : natChars q = c0 :: t0)
    (hrest : rest = [] ∨ rest.head? = some '.') :
    ¬ (c0 = '0' ∧ t0 ++ rest ≠ [] ∧ (t0 ++ rest).head? ≠ some '.') := by
  rintro ⟨hzero, hne, hdot⟩
  by_cases hq0 : q = 0
  · subst hq0
    rw [natChars_zero] at hct
    injection hct with h1 h2
    subst h2
    rcases hrest with h | h
    · subst h; exact hne rfl
    · rw [List.nil_append] at hdot; exact hdot h
  · exact natChars_head_ne_zero q hq0 c0 (by rw [hct]; rfl) hzero

theorem parseAfterSign_int_only (q : Nat) (hq : (q : Int) ≤ int64max) :
    parseAfterSign false (natChars q) =
      if int64max < (q : Int) * 10 ^ 8 then none else some ((q : Int) * 10 ^ 8) := by
  obtain ⟨c0, t0, hct⟩ := List.exists_cons_of_ne_nil (natChars_ne_nil q)
  have hc0 : c0.isDigit = true := natChars_all_digits q c0 (by rw [hct]; simp)
  have hloop : parseIntLoop (c0 :: t0) 0 = some ((q : Int), []) := by
    have hspec := parseIntLoop_spec (natChars q) [] 0 (natChars_all_digits q)
      (natChars_accOk q hq) (by intro c hc; simp at hc)
    rw [List.append_nil, natChars_val, hct] at hspec
    exact hspec
  rw [hct]
  have hlead := parseAfterSign_leading_ok q c0 t0 [] hct (Or.inl rfl)
  rw [List.append_nil] at hlead
  simp only [parseAfterSign, hloop]
  simp [hc0, hlead]

theorem parseAfterSign_with_frac (q : Nat) (F : List Char)
    (hq : (q : Int) ≤ int64max)
    (hdigF : ∀ c ∈ F, c.isDigit = true) (hFne : F ≠ []) (hFlen : F.length ≤ 8) :
    parseAfterSign false (natChars q ++ '.' :: F) =
      if int64max < charsVal ((q : Int)) F * 10 ^ (8 - F.length) then none
      else some (charsVal ((q : Int)) F * 10 ^ (8 - F.length)) := by
  obtain ⟨c0, t0, hct⟩ := List.exists_cons_of_ne_nil (natChars_ne_nil q)
  obtain ⟨f0, F1, hF⟩ := List.exists_cons_of_ne_nil hFne
  have hc0 : c0.isDigit = true := natChars_all_digits q c0 (by rw [hct]; simp)
  have hloop : parseIntLoop (c0 :: (t0 ++ '.' :: F)) 0 = some ((q : Int), '.' :: F) := by
    have hspec := parseIntLoop_spec (natChars q) ('.' :: F) 0 (natChars_all_digits q)
      (natChars_accOk q hq) (by intro c hc; injection hc with h; subst h; decide)
    rw [natChars_val, hct] at hspec
    rw [← List.cons_append]
    exact hspec
  have hfrac : parseFracLoop F 0 ((q : Int)) = some (charsVal ((q : Int)) F, F.length) := by
    have := parseFracLoop_spec F 0 ((q : Int)) hdigF (by omega)
    simpa using this
  have hlead := parseAfterSign_leading_ok q c0 t0 ('.' :: F) hct (Or.inr rfl)
  have hs : natChars q ++ '.' :: F = c0 :: (t0 ++ '.' :: F) := by rw [hct]; rfl
  rw [hs]
  simp only [parseAfterSign, hloop]
  rw [if_neg (show ¬¬(c0.isDigit = true) by simp [hc0]), if_neg hlead]
  rw [hF] at hfrac ⊢
  simp only [hfrac]
  simp

theorem parse_toString_roundTrip (a : Int) (h0 : 0 ≤ a) (h1 : a ≤ int64max) :
    parseAmount (toStringAmount a) = some a := by
  have hna : ((a.natAbs : Nat) : Int) = a := Int.natAbs_of_nonneg h0
  have hnn : ¬ a < 0 := not_lt.mpr h0
  have hqr : ((a.natAbs / 100000000 : Nat) : Int) * 100000000 +
      ((a.natAbs % 100000000 : Nat) : Int) = a := by
    have h2 : a.natAbs / 100000000 * 100000000 + a.natAbs % 100000000 = a.natAbs := by omega
    rw [← hna]
    exact_mod_cast h2
  have hqle : ((a.natAbs / 100000000 : Nat) : Int) ≤ int64max := by
    have hle : a.natAbs / 100000000 ≤ a.natAbs := Nat.div_le_self _ _
    have := Int.ofNat_le.mpr hle
    omega
  rw [parseAmount_reduce _ (toStringAmount_ne_nil a) (toStringAmount_chars_nonneg a h0),
    parseSigned_reduce _ (toStringAmount_chars_nonneg a h0)]
  by_cases hr : a.natAbs % 100000000 = 0
  · rw [toStringAmount_r0 a hnn hr, parseAfterSign_int_only _ hqle]
    have ha : ((a.natAbs / 100000000 : Nat) : Int) * 10 ^ 8 = a := by
      rw [hr] at hqr
      push_cast at hqr
      rw [show ((10:Int))^8 = 100000000 by norm_num]
      omega
    rw [ha, if_neg (by omega)]
  · obtain ⟨F, z, hshape, hdig, hne, hlen, hval, _⟩ := toStringAmount_shape a hr
    rw [hshape]
    simp only [if_neg hnn, List.nil_append]
    rw [parseAfterSign_with_frac _ F hqle hdig hne (by omega)]
    have hv : charsVal ((a.natAbs / 100000000 : Nat) : Int) F * 10 ^ (8 - F.length) = a := by
      rw [charsVal_linear, show (8 : Nat) - F.length = z by omega, add_mul, mul_assoc,
        ← pow_add, show F.length + z = 8 from hlen, hval,
        show ((10:Int))^8 = 100000000 by norm_num]
      exact hqr
    rw [hv, if_neg (by omega)]

theorem toStringAmount_neg_head (a : Int) (h : a < 0) : (toStringAmount a).head? = some '-' := by
  by_cases hr : a.natAbs % 100000000 = 0
  · unfold toStringAmount
    simp only [if_pos h, if_pos hr]
    rfl
  · obtain ⟨F, z, hshape, _, _, _, _, _⟩ := toStringAmount_shape a hr
    rw [hshape]
    simp [if_pos h]

theorem clamped_nonneg (a : Int) : 0 ≤ (if a < 0 then 0 else a) := by
  split
  · exact le_refl 0
  · omega

/-! # Claims -/

/-- C1: the issuance-schedule constants are 200000·10⁸ and 10000·10⁸
units; for every report count `n` with epoch `n / 525000`, the mining
amount and subsidy amount equal the initial amounts halved once per
epoch (i.e. divided by `2^epoch`), and both are zero for every epoch
greater than 63. -/
theorem C1_issuance_schedule :
    INITIAL_MINING_AMOUNT = 200000 * 10 ^ 8 ∧
    INITIAL_SUBSIDY_AMOUNT = 10000 * 10 ^ 8 ∧
    (∀ n : Nat, getMiningAmount n = ((INITIAL_MINING_AMOUNT / 2 ^ getEpoch n : Nat) : Int) ∧
      getSubsidyAmount n = ((INITIAL_SUBSIDY_AMOUNT / 2 ^ getEpoch n : Nat) : Int)) ∧
    (∀ n : Nat, 63 < getEpoch n → getMiningAmount n = 0 ∧ getSubsidyAmount n = 0) := by
  refine ⟨rfl, rfl, ?_, ?_⟩
  · intro n
    have hdiv : ∀ c : Nat, c < 2 ^ 64 → 63 < getEpoch n → c / 2 ^ getEpoch n = 0 := by
      intro c hc he
      exact Nat.div_eq_of_lt (lt_of_lt_of_le hc (Nat.pow_le_pow_right (by norm_num) he))
    constructor
    · unfold getMiningAmount
      split
      · rename_i h
        rw [hdiv _ (by norm_num [INITIAL_MINING_AMOUNT]) h]
        rfl
      · rw [Nat.shiftRight_eq_div_pow]
    · unfold getSubsidyAmount
      split
      · rename_i h
        rw [hdiv _ (by norm_num [INITIAL_SUBSIDY_AMOUNT]) h]
        rfl
      · rw [Nat.shiftRight_eq_div_pow]
  · intro n h
    constructor
    · unfold getMiningAmount
      rw [if_pos h]
    · unfold getSubsidyAmount
      rw [if_pos h]

/-- C4: for every non-negative Amount `a` with `a ≤ INT64_MAX`,
`Amount::parse` applied to `to_string(a)` succeeds and yields a value
equal to `a`; and `to_string` normalizes: when the fractional part is
zero there is no decimal point at all, and otherwise the output ends
neither in a trailing zero fractional digit nor in the decimal point
itself. -/
theorem C4_amount_round_trip (a : Int) (h0 : 0 ≤ a) (h1 : a ≤ int64max) :
    parseAmount (toStringAmount a) = some a ∧
    (a.natAbs % 100000000 = 0 → '.' ∉ toStringAmount a) ∧
    (a.natAbs % 100000000 ≠ 0 →
      '.' ∈ toStringAmount a ∧
      ∀ c, (toStringAmount a).getLast? = some c → c ≠ '0' ∧ c ≠ '.') := by
  refine ⟨parse_toString_roundTrip a h0 h1, ?_, ?_⟩
  · intro hr hdot
    rw [toStringAmount_r0 a (not_lt.mpr h0) hr] at hdot
    exact absurd (natChars_all_digits _ _ hdot) (by decide)
  · intro hr
    obtain ⟨F, z, hshape, hdig, hne, hlen, hval, hlast⟩ := toStringAmount_shape a hr
    constructor
    · rw [hshape]
      exact List.mem_append_right _ (List.mem_cons_self _ _)
    · intro c hc
      rw [hshape] at hc
      rw [getLast?_append_right _ ('.' :: F) (by simp),
        show ('.' :: F) = ['.'] ++ F from rfl, getLast?_append_right _ F hne] at hc
      have hcF : c ∈ F := List.mem_of_mem_getLast? hc
      exact ⟨hlast c hc, (isDigit_ne_special c (hdig c hcF)).2.1⟩

/-- C4 witness: the round-trip and normalization at the concrete amount
3000000300 (rendered "30.000003"). -/
theorem C4_amount_round_trip_witness :
    (0 : Int) ≤ 3000000300 ∧ (3000000300 : Int) ≤ int64max ∧
    (parseAmount (toStringAmount 3000000300) = some 3000000300 ∧
      ((3000000300 : Int).natAbs % 100000000 = 0 → '.' ∉ toStringAmount 3000000300) ∧
      ((3000000300 : Int).natAbs % 100000000 ≠ 0 →
        '.' ∈ toStringAmount 3000000300 ∧
        ∀ c, (toStringAmount 3000000300).getLast? = some c → c ≠ '0' ∧ c ≠ '.')) :=
  ⟨by decide, by decide, C4_amount_round_trip 3000000300 (by decide) (by decide)⟩

/-- C10: the claim-code serializer clamps negative amounts to zero
before formatting, so the emitted string never contains a minus sign
(unless the kind or hex arguments themselves do), serialization is not
injective on negative amounts, parse-after-format yields a non-negative
value distinct from the negative input, even though `to_string(Amount)`
alone prints a leading minus sign on negative amounts. -/
theorem C10_webcash_string_clamps :
    (∀ (a : Int) (ty hex : List Char), a < 0 → webcashString a ty hex = webcashString 0 ty hex) ∧
    (∀ (a : Int) (ty hex : List Char) (c : Char), c ∈ webcashString a ty hex → c = '-' →
      ('-' ∈ ty ∨ '-' ∈ hex)) ∧
    (∀ (ty hex : List Char), webcashString (-1) ty hex = webcashString (-2) ty hex) ∧
    ((-1 : Int) ≠ (-2 : Int)) ∧
    (∀ a : Int, a < 0 → ∀ v, parseAmount (toStringAmount (if a < 0 then 0 else a)) = some v →
      0 ≤ v ∧ v ≠ a) ∧
    (∀ a : Int, a < 0 → (toStringAmount a).head? = some '-') := by
  have hclamp : ∀ (a : Int) (ty hex : List Char), a < 0 →
      webcashString a ty hex = webcashString 0 ty hex := by
    intro a ty hex h
    unfold webcashString
    rw [if_pos h, if_neg (by omega)]
  refine ⟨hclamp, ?_, ?_, by decide, ?_, toStringAmount_neg_head⟩
  · intro a ty hex c hc hminus
    subst hminus
    unfold webcashString at hc
    rcases List.mem_cons.mp hc with h | h
    · exact absurd h (by decide)
    · rcases List.mem_append.mp h with h2 | h2
      · rcases toStringAmount_chars_nonneg _ (clamped_nonneg a) _ h2 with h3 | h3
        · exact absurd h3 (by decide)
        · exact absurd h3 (by decide)
      · rcases List.mem_cons.mp h2 with h3 | h3
        · exact absurd h3 (by decide)
        · rcases List.mem_append.mp h3 with h4 | h4
          · exact Or.inl h4
          · rcases List.mem_cons.mp h4 with h5 | h5
            · exact absurd h5 (by decide)
            · exact Or.inr h5
  · intro ty hex
    rw [hclamp (-1) ty hex (by decide), hclamp (-2) ty hex (by decide)]
  · intro a ha v hv
    rw [if_pos ha] at hv
    have : parseAmount (toStringAmount 0) = some 0 := by decide
    rw [this] at hv
    have hv0 : v = 0 := by injection hv with h; exact h.symm
    subst hv0
    exact ⟨le_refl 0, by omega⟩

/-- C10 witness: the clamping and its consequences at the concrete
negative amount -1 with kind "secret". -/
theorem C10_webcash_string_clamps_witness :
    ((-1 : Int) < 0 ∧
      webcashString (-1) ['s', 'e', 'c', 'r', 'e', 't'] ['a', 'b'] =
        webcashString 0 ['s', 'e', 'c', 'r', 'e', 't'] ['a', 'b']) ∧
    ((-1 : Int) < 0 ∧ (toStringAmount (-1)).head? = some '-') :=
  ⟨⟨by decide, (C10_webcash_string_clamps.1) (-1) ['s', 'e', 'c', 'r', 'e', 't'] ['a', 'b']
      (by decide)⟩,
   ⟨by decide, (C10_webcash_string_clamps.2.2.2.2.2) (-1) (by decide)⟩⟩

/-- C8: the public hash of a secret webcash is the SHA-256 digest of
the ASCII bytes of the hex secret-key string, not of the 32 raw decoded
bytes; at the specification's example secret the digest is
9a8a1ac24dd10f243c9ac05eb7093d130a032d5a31ae648014a33f8e02d47fcf. -/
theorem C8_public_derivation :
    (∀ sk : List Char, publicPk sk = sha256 (sk.map Char.toNat)) ∧
    publicPk exampleSk = exampleDigest ∧
    sha256 exampleRawSkBytes ≠ exampleDigest :=
  ⟨fun _ => rfl, by decide, by decide⟩

/-- C9: for every dequeued solution whose POST received an HTTP
response, a 400 response whose JSON-object body carries the error field
"Didn't use a new secret value." is not orphan-logged; every other
non-200 response appends the solution to the orphan log and forces an
immediate settings refetch. -/
theorem C9_orphan_logging :
    (∀ (ws : WorkerState) (soln : Solution) (now : Int) (r : MinerResponse) (walletOk : Bool),
      r.status = 400 → r.bodyObject = true →
      r.errorField = some "Didn't use a new secret value." →
      (handleResponse ws soln now r walletOk).orphanLog = ws.orphanLog) ∧
    (∀ (ws : WorkerState) (soln : Solution) (now : Int) (r : MinerResponse) (walletOk : Bool),
      r.status ≠ 200 → ¬ benignReject r →
      (handleResponse ws soln now r walletOk).orphanLog = ws.orphanLog ++ [soln] ∧
      (handleResponse ws soln now r walletOk).nextSettingsFetch = now) := by
  constructor
  · intro ws soln now r walletOk h400 hobj herr
    unfold handleResponse
    rw [if_neg (by
      rintro ⟨_, hnb⟩
      exact hnb ⟨h400, hobj, herr⟩)]
    split
    · split <;> rfl
    · split <;> rfl
  · intro ws soln now r walletOk h200 hnb
    unfold handleResponse
    rw [if_pos ⟨h200, hnb⟩]
    exact ⟨rfl, rfl⟩

/-- C9 witness: a benign 400 reject is not orphan-logged, while a 500
response is orphan-logged and forces a refetch, at concrete states. -/
theorem C9_orphan_logging_witness :
    ((400 : Nat) = 400 ∧
      (handleResponse ⟨[], [], 28, 0⟩ ⟨"p", "h", "w"⟩ 7
        ⟨400, true, some "Didn't use a new secret value.", none⟩ true).orphanLog = []) ∧
    ((500 : Nat) ≠ 200 ∧
      (handleResponse ⟨[], [], 28, 0⟩ ⟨"p", "h", "w"⟩ 7
        ⟨500, true, some "x", none⟩ true).orphanLog = [⟨"p", "h", "w"⟩] ∧
      (handleResponse ⟨[], [], 28, 0⟩ ⟨"p", "h", "w"⟩ 7
        ⟨500, true, some "x", none⟩ true).nextSettingsFetch = 7) :=
  ⟨⟨rfl, C9_orphan_logging.1 ⟨[], [], 28, 0⟩ ⟨"p", "h", "w"⟩ 7
      ⟨400, true, some "Didn't use a new secret value.", none⟩ true rfl rfl rfl⟩,
   ⟨by decide, C9_orphan_logging.2 ⟨[], [], 28, 0⟩ ⟨"p", "h", "w"⟩ 7
      ⟨500, true, some "x", none⟩ true (by decide) (by decide)⟩⟩

/-! ## Helper lemmas for the ledger -/

theorem i64wrap_id (v : Int) (h1 : -(2 ^ 63) ≤ v) (h2 : v < 2 ^ 63) : i64wrap v = v := by
  unfold i64wrap
  rw [Int.emod_eq_of_lt (by omega) (by omega)]
  ring

theorem i64wrap_big (v : Int) (h1 : 2 ^ 63 ≤ v) (h2 : v < 2 ^ 64) : i64wrap v = v - 2 ^ 64 := by
  unfold i64wrap
  have hsplit : v + 2 ^ 63 = (v + 2 ^ 63 - 2 ^ 64) + 2 ^ 64 * 1 := by ring
  rw [hsplit, Int.add_mul_emod_self_left, Int.emod_eq_of_lt (by omega) (by omega)]
  ring

theorem keys_cons (p : Nat × Int) (u : List (Nat × Int)) : keys (p :: u) = p.1 :: keys u := rfl

theorem sumAmounts_nil : sumAmounts [] = 0 := rfl

theorem sumAmounts_cons (p : Nat × Int) (l : List (Nat × Int)) :
    sumAmounts (p :: l) = p.2 + sumAmounts l := by
  unfold sumAmounts
  simp

theorem sumAmounts_append (l1 l2 : List (Nat × Int)) :
    sumAmounts (l1 ++ l2) = sumAmounts l1 + sumAmounts l2 := by
  unfold sumAmounts
  simp

theorem sumAmounts_nonneg_of_pos (l : List (Nat × Int)) (h : ∀ p ∈ l, 1 ≤ p.2) :
    0 ≤ sumAmounts l := by
  induction l with
  | nil => simp [sumAmounts_nil]
  | cons p l ih =>
    rw [sumAmounts_cons]
    have := h p (by simp)
    have := ih (fun q hq => h q (by simp [hq]))
    omega

theorem lookupAmount_cons (p : Nat × Int) (u : List (Nat × Int)) (h : Nat) :
    lookupAmount (p :: u) h = if p.1 = h then some p.2 else lookupAmount u h := by
  unfold lookupAmount
  by_cases hp : p.1 = h
  · rw [List.find?_cons_of_pos _ (by simpa using hp), if_pos hp]
    rfl
  · rw [List.find?_cons_of_neg _ (by simpa using hp), if_neg hp]

theorem lookupAmount_none_iff (u : List (Nat × Int)) (h : Nat) :
    lookupAmount u h = none ↔ h ∉ keys u := by
  induction u with
  | nil => simp [lookupAmount, keys]
  | cons p u ih =>
    rw [lookupAmount_cons, keys_cons]
    by_cases hp : p.1 = h
    · simp [hp]
    · simp only [if_neg hp, ih, List.mem_cons]
      constructor
      · rintro hnm (rfl | hmem)
        · exact hp rfl
        · exact hnm hmem
      · intro hnm hmem
        exact hnm (Or.inr hmem)

theorem lookupAmount_some_mem (u : List (Nat × Int)) (h : Nat) (a : Int)
    (hl : lookupAmount u h = some a) : (h, a) ∈ u := by
  induction u with
  | nil => simp [lookupAmount] at hl
  | cons p u ih =>
    rw [lookupAmount_cons] at hl
    by_cases hp : p.1 = h
    · rw [if_pos hp] at hl
      injection hl with hl
      have hpa : (h, a) = p := by
        obtain ⟨p1, p2⟩ := p
        simp only at hp hl
        rw [← hp, ← hl]
      rw [hpa]
      exact List.mem_cons_self _ _
    · rw [if_neg hp] at hl
      exact List.mem_cons_of_mem _ (ih hl)

theorem checkInputs_none_sound (u : List (Nat × Int)) (l : List (Nat × Int))
    (h : checkInputs u l = none) : ∀ p ∈ l, lookupAmount u p.1 = some p.2 := by
  induction l with
  | nil => intro p hp; simp at hp
  | cons q l ih =>
    intro p hp
    rw [checkInputs] at h
    split at h
    · simp at h
    next amt heq =>
      split at h
      · simp at h
      next hamt =>
        push_neg at hamt
        rcases List.mem_cons.mp hp with rfl | hmem
        · rw [heq, hamt]
        · exact ih h p hmem

theorem checkInputs_none_complete (u : List (Nat × Int)) (l : List (Nat × Int))
    (h : ∀ p ∈ l, lookupAmount u p.1 = some p.2) : checkInputs u l = none := by
  induction l with
  | nil => rfl
  | cons q l ih =>
    rw [checkInputs, h q (by simp)]
    show (if q.2 ≠ q.2 then some "wrong amount" else checkInputs u l) = none
    rw [if_neg (by simp)]
    exact ih (fun p hp => h p (by simp [hp]))

theorem checkOutputs_none_sound (u : List (Nat × Int)) (err : String) (l : List (Nat × Int))
    (h : checkOutputs u err l = none) : ∀ p ∈ l, lookupAmount u p.1 = none := by
  induction l with
  | nil => intro p hp; simp at hp
  | cons q l ih =>
    intro p hp
    rw [checkOutputs] at h
    by_cases hq : (lookupAmount u q.1).isSome
    · rw [if_pos hq] at h; simp at h
    · rw [if_neg hq] at h
      rcases List.mem_cons.mp hp with rfl | hmem
      · rwa [← Option.not_isSome_iff_eq_none]
      · exact ih h p hmem

theorem checkOutputs_some_of_mem (u : List (Nat × Int)) (err : String) (l : List (Nat × Int))
    (p : Nat × Int) (hp : p ∈ l) (hs : (lookupAmount u p.1).isSome) :
    checkOutputs u err l = some err := by
  induction l with
  | nil => simp at hp
  | cons q l ih =>
    rw [checkOutputs]
    by_cases hq : (lookupAmount u q.1).isSome
    · rw [if_pos hq]
    · rw [if_neg hq]
      rcases List.mem_cons.mp hp with rfl | hmem
      · exact absurd hs hq
      · exact ih hmem

theorem sumWithCheck_sound (l : List (Nat × Int)) :
    ∀ (acc t : Int), (∀ p ∈ l, p.2 ≤ int64max) → 0 ≤ acc → acc ≤ int64max →
      sumWithCheck l acc = some t →
      t = acc + sumAmounts l ∧ (∀ p ∈ l, 1 ≤ p.2) ∧ 0 ≤ t ∧ t ≤ int64max := by
  induction l with
  | nil =>
    intro acc t _ h0 h1 hsum
    rw [sumWithCheck] at hsum
    injection hsum with hsum
    subst hsum
    simp [sumAmounts_nil]
    exact ⟨h0, h1⟩
  | cons q l ih =>
    intro acc t hbound h0 h1 hsum
    have hmax : int64max = 9223372036854775807 := rfl
    rw [sumWithCheck] at hsum
    split at hsum
    · exact absurd hsum (by simp)
    next hcond =>
      push_neg at hcond
      obtain ⟨hge1, hqge1⟩ := hcond
      have hqle : q.2 ≤ int64max := hbound q (by simp)
      by_cases hfit : acc + q.2 ≤ int64max
      · have hwrap : i64wrap (acc + q.2) = acc + q.2 := by
          apply i64wrap_id
          · have : (0:Int) < 2 ^ 63 := by norm_num
            omega
          · omega
        rw [hwrap] at hsum hge1
        obtain ⟨ht, hpos, ht0, htm⟩ := ih (acc + q.2) t
          (fun p hp => hbound p (by simp [hp])) (by omega) (by omega) hsum
        refine ⟨?_, ?_, ht0, htm⟩
        · rw [ht, sumAmounts_cons]
          ring
        · intro p hp
          rcases List.mem_cons.mp hp with rfl | hmem
          · omega
          · exact hpos p hmem
      · exfalso
        push_neg at hfit
        have hwrap : i64wrap (acc + q.2) = acc + q.2 - 2 ^ 64 := by
          apply i64wrap_big
          · omega
          · omega
        rw [hwrap] at hge1
        omega

theorem sumWithCheck_complete (l : List (Nat × Int)) :
    ∀ acc : Int, (∀ p ∈ l, 1 ≤ p.2) → 0 ≤ acc → acc + sumAmounts l ≤ int64max →
      sumWithCheck l acc = some (acc + sumAmounts l) := by
  induction l with
  | nil => intro acc _ _ _; rw [sumWithCheck, sumAmounts_nil, add_zero]
  | cons q l ih =>
    intro acc hpos h0 hle
    have hmax : int64max = 9223372036854775807 := rfl
    have hq1 : 1 ≤ q.2 := hpos q (by simp)
    have hrest : 0 ≤ sumAmounts l := sumAmounts_nonneg_of_pos l (fun p hp => hpos p (by simp [hp]))
    rw [sumAmounts_cons] at hle
    have hwrap : i64wrap (acc + q.2) = acc + q.2 := by
      apply i64wrap_id
      · have : (0:Int) < 2 ^ 63 := by norm_num
        omega
      · omega
    rw [sumWithCheck, hwrap, if_neg (by omega)]
    rw [ih (acc + q.2) (fun p hp => hpos p (by simp [hp])) (by omega) (by omega)]
    rw [sumAmounts_cons]
    ring_nf

theorem eraseKey_cons (p : Nat × Int) (u : List (Nat × Int)) (h : Nat) :
    eraseKey (p :: u) h = if p.1 = h then eraseKey u h else p :: eraseKey u h := by
  unfold eraseKey
  by_cases hp : p.1 = h
  · rw [List.filter_cons_of_neg (by simp [hp]), if_pos hp]
  · rw [List.filter_cons_of_pos (by simp [hp]), if_neg hp]

theorem eraseKey_not_mem (u : List (Nat × Int)) (h : Nat) (hm : h ∉ keys u) :
    eraseKey u h = u := by
  induction u with
  | nil => rfl
  | cons p u ih =>
    rw [keys_cons, List.mem_cons] at hm
    push_neg at hm
    rw [eraseKey_cons, if_neg (fun hc => hm.1 hc.symm), ih hm.2]

theorem mem_keys_eraseKey (u : List (Nat × Int)) (h k : Nat) :
    k ∈ keys (eraseKey u h) ↔ k ∈ keys u ∧ k ≠ h := by
  induction u with
  | nil => simp [eraseKey, keys]
  | cons p u ih =>
    rw [eraseKey_cons]
    by_cases hp : p.1 = h
    · rw [if_pos hp, ih, keys_cons, List.mem_cons]
      subst hp
      constructor
      · rintro ⟨hmem, hne⟩
        exact ⟨Or.inr hmem, hne⟩
      · rintro ⟨rfl | hmem, hne⟩
        · exact absurd rfl hne
        · exact ⟨hmem, hne⟩
    · rw [if_neg hp, keys_cons, keys_cons, List.mem_cons, List.mem_cons, ih]
      constructor
      · rintro (rfl | ⟨hmem, hne⟩)
        · exact ⟨Or.inl rfl, fun hc => hp (hc ▸ rfl)⟩
        · exact ⟨Or.inr hmem, hne⟩
      · rintro ⟨rfl | hmem, hne⟩
        · exact Or.inl rfl
        · exact Or.inr ⟨hmem, hne⟩

theorem keys_eraseKey_nodup (u : List (Nat × Int)) (h : Nat) (hn : (keys u).Nodup) :
    (keys (eraseKey u h)).Nodup := by
  have hsub : List.Sublist (eraseKey u h) u := List.filter_sublist u
  exact List.Nodup.sublist (List.Sublist.map Prod.fst hsub) hn

theorem lookupAmount_eraseKey_ne (u : List (Nat × Int)) (h k : Nat) (hk : k ≠ h) :
    lookupAmount (eraseKey u h) k = lookupAmount u k := by
  induction u with
  | nil => rfl
  | cons p u ih =>
    rw [eraseKey_cons]
    by_cases hp : p.1 = h
    · rw [if_pos hp, lookupAmount_cons, if_neg (by rw [hp]; exact fun hc => hk hc.symm), ih]
    · rw [if_neg hp, lookupAmount_cons, lookupAmount_cons, ih]

theorem sum_len_eraseKey (u : List (Nat × Int)) (h : Nat) (a : Int)
    (hn : (keys u).Nodup) (hl : lookupAmount u h = some a) :
    sumAmounts (eraseKey u h) = sumAmounts u - a ∧ (eraseKey u h).length + 1 = u.length := by
  induction u with
  | nil => simp [lookupAmount] at hl
  | cons p u ih =>
    rw [keys_cons, List.nodup_cons] at hn
    rw [lookupAmount_cons] at hl
    rw [eraseKey_cons]
    by_cases hp : p.1 = h
    · rw [if_pos hp] at hl ⊢
      injection hl with hl
      rw [eraseKey_not_mem u h (hp ▸ hn.1), sumAmounts_cons, ← hl]
      constructor
      · ring
      · simp
    · rw [if_neg hp] at hl ⊢
      obtain ⟨hs, hlen⟩ := ih hn.2 hl
      rw [sumAmounts_cons, sumAmounts_cons, hs]
      constructor
      · ring
      · simp only [List.length_cons]
        omega

theorem eraseFold_mem (ins : List (Nat × Int)) :
    ∀ (u : List (Nat × Int)) (k : Nat),
      k ∈ keys (ins.foldl (fun uu p => eraseKey uu p.1) u) ↔ k ∈ keys u ∧ k ∉ keys ins := by
  induction ins with
  | nil =>
    intro u k
    simp [keys]
  | cons q ins ih =>
    intro u k
    rw [List.foldl_cons, ih, mem_keys_eraseKey, keys_cons, List.mem_cons]
    constructor
    · rintro ⟨⟨hu, hne⟩, hnotin⟩
      exact ⟨hu, by rintro (rfl | hmem) <;> [exact hne rfl; exact hnotin hmem]⟩
    · rintro ⟨hu, hnot⟩
      push_neg at hnot
      exact ⟨⟨hu, hnot.1⟩, hnot.2⟩

theorem eraseFold_sum_len (ins : List (Nat × Int)) :
    ∀ u : List (Nat × Int), (keys u).Nodup → (keys ins).Nodup →
      (∀ p ∈ ins, lookupAmount u p.1 = some p.2) →
      sumAmounts (ins.foldl (fun uu p => eraseKey uu p.1) u) = sumAmounts u - sumAmounts ins ∧
      (ins.foldl (fun uu p => eraseKey uu p.1) u).length + ins.length = u.length ∧
      (keys (ins.foldl (fun uu p => eraseKey uu p.1) u)).Nodup := by
  induction ins with
  | nil =>
    intro u hnu _ _
    simp only [List.foldl_nil, sumAmounts_nil, List.length_nil]
    exact ⟨by ring, by omega, hnu⟩
  | cons q ins ih =>
    intro u hnu hni hfound
    rw [keys_cons, List.nodup_cons] at hni
    have hq := hfound q (by simp)
    obtain ⟨hes, hel⟩ := sum_len_eraseKey u q.1 q.2 hnu hq
    have hnu2 : (keys (eraseKey u q.1)).Nodup := keys_eraseKey_nodup u q.1 hnu
    have hfound2 : ∀ p ∈ ins, lookupAmount (eraseKey u q.1) p.1 = some p.2 := by
      intro p hp
      have hne : p.1 ≠ q.1 := by
        intro hc
        exact hni.1 (hc ▸ (List.mem_map.mpr ⟨p, hp, rfl⟩))
      rw [lookupAmount_eraseKey_ne u q.1 p.1 hne]
      exact hfound p (by simp [hp])
    obtain ⟨hs, hl, hn⟩ := ih (eraseKey u q.1) hnu2 hni.2 hfound2
    rw [List.foldl_cons]
    refine ⟨?_, ?_, hn⟩
    · rw [hs, hes, sumAmounts_cons]
      ring
    · simp only [List.length_cons]
      omega

theorem insertKey_not_mem (u : List (Nat × Int)) (h : Nat) (a : Int) (hm : h ∉ keys u) :
    insertKey u h a = u ++ [(h, a)] := by
  unfold insertKey
  rw [eraseKey_not_mem u h hm]

theorem mem_keys_insertKey (u : List (Nat × Int)) (h k : Nat) (a : Int) :
    k ∈ keys (insertKey u h a) → k ∈ keys u ∨ k = h := by
  intro hk
  unfold insertKey at hk
  unfold keys at hk
  rw [List.map_append, List.mem_append] at hk
  rcases hk with hk | hk
  · left
    exact (mem_keys_eraseKey u h k).mp hk |>.1
  · right
    simpa using hk

theorem insertFold_keys_sub (outs : List (Nat × Int)) :
    ∀ (u : List (Nat × Int)) (k : Nat),
      k ∈ keys (outs.foldl (fun uu p => insertKey uu p.1 p.2) u) →
      k ∈ keys u ∨ k ∈ keys outs := by
  induction outs with
  | nil => intro u k hk; exact Or.inl hk
  | cons q outs ih =>
    intro u k hk
    rw [List.foldl_cons] at hk
    rcases ih (insertKey u q.1 q.2) k hk with hk2 | hk2
    · rcases mem_keys_insertKey u q.1 k q.2 hk2 with h3 | h3
      · exact Or.inl h3
      · exact Or.inr (by rw [keys_cons, h3]; simp)
    · exact Or.inr (by rw [keys_cons]; simp [hk2])

theorem insertFold_sum_len (outs : List (Nat × Int)) :
    ∀ u : List (Nat × Int), (keys u).Nodup → (keys outs).Nodup →
      (∀ p ∈ outs, p.1 ∉ keys u) →
      sumAmounts (outs.foldl (fun uu p => insertKey uu p.1 p.2) u) =
        sumAmounts u + sumAmounts outs ∧
      (outs.foldl (fun uu p => insertKey uu p.1 p.2) u).length = u.length + outs.length ∧
      (keys (outs.foldl (fun uu p => insertKey uu p.1 p.2) u)).Nodup := by
  induction outs with
  | nil =>
    intro u hnu _ _
    simp only [List.foldl_nil, sumAmounts_nil, List.length_nil]
    exact ⟨by ring, by omega, hnu⟩
  | cons q outs ih =>
    intro u hnu hno hfresh
    rw [keys_cons, List.nodup_cons] at hno
    have hqf : q.1 ∉ keys u := hfresh q (by simp)
    have hins : insertKey u q.1 q.2 = u ++ [(q.1, q.2)] := insertKey_not_mem u q.1 q.2 hqf
    have hkeys : keys (insertKey u q.1 q.2) = keys u ++ [q.1] := by
      rw [hins]
      unfold keys
      rw [List.map_append]
      rfl
    have hnu2 : (keys (insertKey u q.1 q.2)).Nodup := by
      rw [hkeys]
      rw [List.nodup_append]
      refine ⟨hnu, by simp, ?_⟩
      intro x hx
      simp only [List.mem_singleton]
      intro hc
      exact hqf (hc ▸ hx)
    have hfresh2 : ∀ p ∈ outs, p.1 ∉ keys (insertKey u q.1 q.2) := by
      intro p hp
      rw [hkeys, List.mem_append]
      rintro (hc | hc)
      · exact hfresh p (by simp [hp]) hc
      · have : p.1 = q.1 := by simpa using hc
        exact hno.1 (this ▸ (List.mem_map.mpr ⟨p, hp, rfl⟩))
    obtain ⟨hs, hl, hn⟩ := ih (insertKey u q.1 q.2) hnu2 hno.2 hfresh2
    rw [List.foldl_cons]
    refine ⟨?_, ?_, hn⟩
    · rw [hs, hins, sumAmounts_append, sumAmounts_cons, sumAmounts_cons]
      simp [sumAmounts_nil]
      ring
    · rw [hl, hins]
      simp only [List.length_append, List.length_cons, List.length_nil]
      omega

theorem setInsert_mem (s : List Nat) (h k : Nat) : k ∈ setInsert s h ↔ k ∈ s ∨ k = h := by
  unfold setInsert
  split
  next hmem =>
    constructor
    · exact Or.inl
    · rintro (hk | rfl)
      · exact hk
      · exact hmem
  next hmem =>
    rw [List.mem_append]
    simp

theorem setInsertFold_mem (ins : List (Nat × Int)) :
    ∀ (s : List Nat) (k : Nat),
      k ∈ ins.foldl (fun ss p => setInsert ss p.1) s ↔ k ∈ s ∨ k ∈ keys ins := by
  induction ins with
  | nil => intro s k; simp [keys]
  | cons q ins ih =>
    intro s k
    rw [List.foldl_cons, ih, setInsert_mem, keys_cons, List.mem_cons]
    tauto

theorem replaceExec_ok_inversion (st : ServerState) (rq : ReplaceRequest) (st2 : ServerState)
    (h : replaceExec st rq = .ok st2) :
    rq.terms = true ∧ (keys rq.inputs).Nodup ∧ (keys rq.outputs).Nodup ∧
    (∃ t, sumWithCheck rq.inputs 0 = some t ∧ sumWithCheck rq.outputs 0 = some t) ∧
    checkInputs st.unspent rq.inputs = none ∧
    checkOutputs st.unspent "reuse" rq.outputs = none ∧
    st2 = commitReplace st rq.inputs rq.outputs := by
  unfold replaceExec at h
  split at h
  next hterms => exact absurd h (by simp)
  next hterms =>
    split at h
    next hnodin => exact absurd h (by simp)
    next hnodin =>
      split at h
      next => exact absurd h (by simp)
      next tin heqin =>
        split at h
        next hnodout => exact absurd h (by simp)
        next hnodout =>
          split at h
          next => exact absurd h (by simp)
          next tout heqout =>
            split at h
            next hne => exact absurd h (by simp)
            next hne =>
              split at h
              next e heqci => exact absurd h (by simp)
              next heqci =>
                split at h
                next e heqco => exact absurd h (by simp)
                next heqco =>
                  push_neg at hterms hnodin hnodout hne
                  refine ⟨by simpa using hterms, hnodin, hnodout,
                    ⟨tin, heqin, by rw [heqout, hne]⟩, heqci, heqco, ?_⟩
                  injection h with h2
                  exact h2.symm

theorem miningExec_ok_inversion (st : ServerState) (rq : MiningRequest) (st2 : ServerState)
    (h : miningExec st rq = .ok st2) :
    checkOutputs st.unspent "output already exists" rq.webcash = none ∧
    st2 = commitMining st rq := by
  unfold miningExec at h
  by_cases h1 : ¬ rq.terms = true
  · rw [if_pos h1] at h; exact Except.noConfusion h
  rw [if_neg h1] at h
  by_cases h2 : ¬ (keys rq.webcash).Nodup
  · rw [if_pos h2] at h; exact Except.noConfusion h
  rw [if_neg h2] at h
  by_cases h3 : ¬ (keys rq.subsidy).Nodup
  · rw [if_pos h3] at h; exact Except.noConfusion h
  rw [if_neg h3] at h
  by_cases h4 : Option.any (fun d => decide (255 < d)) rq.committed = true
  · rw [if_pos h4] at h; exact Except.noConfusion h
  rw [if_neg h4] at h
  rcases heq1 : sumWithCheck rq.webcash 0 with _ | ma
  · simp only [heq1] at h; exact Except.noConfusion h
  simp only [heq1] at h
  rcases heq2 : subsidyLoop rq.webcash rq.subsidy 0 with e | sa
  · simp only [heq2] at h; exact Except.noConfusion h
  simp only [heq2] at h
  by_cases h5 : rq.webcash.length < rq.subsidy.length ∨ ma < sa
  · rw [if_pos h5] at h; exact Except.noConfusion h
  rw [if_neg h5] at h
  by_cases h6 : rq.bits < 25
  · rw [if_pos h6] at h; exact Except.noConfusion h
  rw [if_neg h6] at h
  by_cases h7 : Option.any (fun d => decide (rq.bits < d)) rq.committed = true
  · rw [if_pos h7] at h; exact Except.noConfusion h
  rw [if_neg h7] at h
  by_cases h8 : Option.any (fun d => decide (d < st.difficulty)) rq.committed = true
  · rw [if_pos h8] at h; exact Except.noConfusion h
  rw [if_neg h8] at h
  by_cases h9 : rq.bits < st.difficulty
  · rw [if_pos h9] at h; exact Except.noConfusion h
  rw [if_neg h9] at h
  by_cases h10 : rq.powHash ∈ st.powHashes
  · rw [if_pos h10] at h; exact Except.noConfusion h
  rw [if_neg h10] at h
  rcases heqO : checkOutputs st.unspent "output already exists" rq.webcash with _ | e
  rotate_left
  · simp only [heqO] at h; exact Except.noConfusion h
  simp only [heqO] at h
  by_cases h11 : ma ≠ getMiningAmount st.numReports
  · rw [if_pos h11] at h; exact Except.noConfusion h
  rw [if_neg h11] at h
  by_cases h12 : sa ≠ getSubsidyAmount st.numReports
  · rw [if_pos h12] at h; exact Except.noConfusion h
  rw [if_neg h12] at h
  exact ⟨heqO ▸ rfl, (Except.ok.inj h).symm⟩

theorem replace_preserves_disjoint (st : ServerState) (rq : ReplaceRequest) (st2 : ServerState)
    (hd : DisjointUS st) (h : replaceExec st rq = .ok st2)
    (hout : ∀ p ∈ rq.outputs, p.1 ∉ st.spent) : DisjointUS st2 := by
  obtain ⟨-, -, -, -, hci, hco, hcommit⟩ := replaceExec_ok_inversion st rq st2 h
  subst hcommit
  intro k hk hks
  have hk2 : k ∈ keys (rq.outputs.foldl (fun uu p => insertKey uu p.1 p.2)
      (rq.inputs.foldl (fun uu p => eraseKey uu p.1) st.unspent)) := hk
  have hks2 : k ∈ rq.inputs.foldl (fun ss p => setInsert ss p.1) st.spent := hks
  rcases insertFold_keys_sub rq.outputs _ k hk2 with hk3 | hk3
  · obtain ⟨hku, hkni⟩ := (eraseFold_mem rq.inputs st.unspent k).mp hk3
    rcases (setInsertFold_mem rq.inputs st.spent k).mp hks2 with hsp | hki
    · exact hd k hku hsp
    · exact hkni hki
  · obtain ⟨p, hp, rfl⟩ := List.mem_map.mp hk3
    have hfresh : lookupAmount st.unspent p.1 = none := checkOutputs_none_sound _ _ _ hco p hp
    rcases (setInsertFold_mem rq.inputs st.spent p.1).mp hks2 with hsp | hki
    · exact hout p hp hsp
    · obtain ⟨q, hq, hqk⟩ := List.mem_map.mp hki
      have hqfound : lookupAmount st.unspent q.1 = some q.2 :=
        checkInputs_none_sound _ _ hci q hq
      have : q.1 ∈ keys st.unspent :=
        List.mem_map.mpr ⟨(q.1, q.2), lookupAmount_some_mem st.unspent q.1 q.2 hqfound, rfl⟩
      rw [hqk] at this
      exact ((lookupAmount_none_iff st.unspent p.1).mp hfresh) this

theorem mining_preserves_disjoint (st : ServerState) (rq : MiningRequest) (st2 : ServerState)
    (hd : DisjointUS st) (h : miningExec st rq = .ok st2)
    (hout : ∀ p ∈ rq.webcash, p.1 ∉ st.spent) : DisjointUS st2 := by
  obtain ⟨hco, hcommit⟩ := miningExec_ok_inversion st rq st2 h
  subst hcommit
  intro k hk hks
  have hk2 : k ∈ keys (rq.webcash.foldl (fun uu p => insertKey uu p.1 p.2) st.unspent) := hk
  have hks2 : k ∈ st.spent := hks
  rcases insertFold_keys_sub rq.webcash st.unspent k hk2 with hk3 | hk3
  · exact hd k hk3 hks2
  · obtain ⟨p, hp, rfl⟩ := List.mem_map.mp hk3
    exact hout p hp hks2

/-- C2: COUNTEREXAMPLE.  The spec claims a spent hash "can never
re-enter the unspent set", but neither V1::replace nor the commit phase
checks proposed outputs against the spent-hash set (only against the
unspent map), so a replacement may re-create a previously spent hash.
Starting from the empty ledger: a mining report creates hashes 1 and 2;
a replace spends hash 1 into hash 3; a second replace spends hash 3
back into hash 1.  The reachable final state carries hash 1 both in
its unspent map and in its spent set. -/
theorem C2_spent_hash_reenters :
    Reachable C2_badState ∧ 1 ∈ keys C2_badState.unspent ∧ 1 ∈ C2_badState.spent ∧
    ¬ DisjointUS C2_badState := by
  refine ⟨?_, by decide, by decide, ?_⟩
  · have h0 : Reachable (emptyServer 0) := Reachable.init 0
    have e1 : miningExec (emptyServer 0) C2_rq1 = .ok C2_st1 := by decide
    have h1 : Reachable C2_st1 := Reachable.mining h0 e1
    have e2 : replaceExec C2_st1 C2_rq2 = .ok C2_st2 := by decide
    have h2 : Reachable C2_st2 := Reachable.replace h1 e2
    have e3 : replaceExec C2_st2 C2_rq3 = .ok C2_badState := by decide
    exact Reachable.replace h2 e3
  · intro hdis
    exact hdis 1 (by decide) (by decide)

/-- C2 (amended): once a hash is recorded as spent it stays in the
spent set, and unspent/spent disjointness is preserved by successful
operations only under the extra hypothesis — not checked by the code —
that no proposed output hash is already in the spent set. -/
theorem C2_disjointness_conditional :
    (∀ (st : ServerState) (rq : ReplaceRequest) (st2 : ServerState) (k : Nat),
      replaceExec st rq = .ok st2 → k ∈ st.spent → k ∈ st2.spent) ∧
    (∀ (st : ServerState) (rq : ReplaceRequest) (st2 : ServerState),
      DisjointUS st → replaceExec st rq = .ok st2 →
      (∀ p ∈ rq.outputs, p.1 ∉ st.spent) → DisjointUS st2) ∧
    (∀ (st : ServerState) (rq : MiningRequest) (st2 : ServerState),
      DisjointUS st → miningExec st rq = .ok st2 →
      (∀ p ∈ rq.webcash, p.1 ∉ st.spent) → DisjointUS st2) := by
  refine ⟨?_, replace_preserves_disjoint, mining_preserves_disjoint⟩
  intro st rq st2 k h hk
  obtain ⟨-, -, -, -, -, -, hcommit⟩ := replaceExec_ok_inversion st rq st2 h
  subst hcommit
  have : k ∈ rq.inputs.foldl (fun ss p => setInsert ss p.1) st.spent :=
    (setInsertFold_mem rq.inputs st.spent k).mpr (Or.inl hk)
  exact this

/-- Witness for C2 (amended): the mining report `C2_rq1` on the empty
ledger satisfies the freshness hypothesis and yields `C2_st1`, which is
again disjoint. -/
theorem C2_disjointness_conditional_witness :
    DisjointUS (emptyServer 0) ∧ miningExec (emptyServer 0) C2_rq1 = .ok C2_st1 ∧
    (∀ p ∈ C2_rq1.webcash, p.1 ∉ (emptyServer 0).spent) ∧ DisjointUS C2_st1 := by
  refine ⟨?_, by decide, ?_, ?_⟩
  · intro k hk
    exact absurd hk (List.not_mem_nil k)
  · intro p hp
    exact List.not_mem_nil p.1
  · exact C2_disjointness_conditional.2.2 (emptyServer 0) C2_rq1 C2_st1
      (fun k hk => absurd hk (List.not_mem_nil k)) (by decide)
      (fun p hp => List.not_mem_nil p.1)

/-- C3: a successful /replace leaves the total unspent value unchanged
and changes the number of unspent outputs by exactly
`|outputs| - |inputs|` (stated over a ledger with no duplicate hashes
and amounts within the int64 range, both invariants of real states). -/
theorem C3_replace_conservation (st : ServerState) (rq : ReplaceRequest) (st2 : ServerState)
    (hnodup : (keys st.unspent).Nodup)
    (hbound : ∀ p ∈ rq.inputs, p.2 ≤ int64max)
    (hbout : ∀ p ∈ rq.outputs, p.2 ≤ int64max)
    (hok : replaceExec st rq = .ok st2) :
    sumAmounts st2.unspent = sumAmounts st.unspent ∧
    (st2.unspent.length : Int) - (st.unspent.length : Int) =
      (rq.outputs.length : Int) - (rq.inputs.length : Int) := by
  obtain ⟨-, hnodin, hnodout, ⟨t, hsin, hsout⟩, hci, hco, hcommit⟩ :=
    replaceExec_ok_inversion st rq st2 hok
  subst hcommit
  have hfound := checkInputs_none_sound st.unspent rq.inputs hci
  have hfresh0 := checkOutputs_none_sound st.unspent "reuse" rq.outputs hco
  obtain ⟨hes, hel, hen⟩ := eraseFold_sum_len rq.inputs st.unspent hnodup hnodin hfound
  have hfresh : ∀ p ∈ rq.outputs,
      p.1 ∉ keys (rq.inputs.foldl (fun uu q => eraseKey uu q.1) st.unspent) := by
    intro p hp hmem
    have hm2 := (eraseFold_mem rq.inputs st.unspent p.1).mp hmem
    exact ((lookupAmount_none_iff st.unspent p.1).mp (hfresh0 p hp)) hm2.1
  obtain ⟨his, hil, -⟩ := insertFold_sum_len rq.outputs
    (rq.inputs.foldl (fun uu q => eraseKey uu q.1) st.unspent) hen hnodout hfresh
  obtain ⟨htin, -, -, -⟩ := sumWithCheck_sound rq.inputs 0 t hbound (le_refl 0)
    (by decide) hsin
  obtain ⟨htout, -, -, -⟩ := sumWithCheck_sound rq.outputs 0 t hbout (le_refl 0)
    (by decide) hsout
  have hsum2 : sumAmounts (commitReplace st rq.inputs rq.outputs).unspent =
      sumAmounts st.unspent - sumAmounts rq.inputs + sumAmounts rq.outputs := by
    have hu : (commitReplace st rq.inputs rq.outputs).unspent =
        rq.outputs.foldl (fun uu p => insertKey uu p.1 p.2)
          (rq.inputs.foldl (fun uu q => eraseKey uu q.1) st.unspent) := rfl
    rw [hu, his, hes]
  have hlen2 : (commitReplace st rq.inputs rq.outputs).unspent.length + rq.inputs.length =
      st.unspent.length + rq.outputs.length := by
    have hu : (commitReplace st rq.inputs rq.outputs).unspent =
        rq.outputs.foldl (fun uu p => insertKey uu p.1 p.2)
          (rq.inputs.foldl (fun uu q => eraseKey uu q.1) st.unspent) := rfl
    rw [hu, hil]
    omega
  constructor
  · rw [hsum2]
    have : sumAmounts rq.inputs = sumAmounts rq.outputs := by omega
    omega
  · omega

/-- Witness for C3 at the concrete replace `C2_rq2` on `C2_st1`. -/
theorem C3_replace_conservation_witness :
    (keys C2_st1.unspent).Nodup ∧ (∀ p ∈ C2_rq2.inputs, p.2 ≤ int64max) ∧
    (∀ p ∈ C2_rq2.outputs, p.2 ≤ int64max) ∧ replaceExec C2_st1 C2_rq2 = .ok C2_st2 ∧
    (sumAmounts C2_st2.unspent = sumAmounts C2_st1.unspent ∧
     (C2_st2.unspent.length : Int) - (C2_st1.unspent.length : Int) =
       (C2_rq2.outputs.length : Int) - (C2_rq2.inputs.length : Int)) :=
  ⟨by decide, by decide, by decide, by decide,
   C3_replace_conservation C2_st1 C2_rq2 C2_st2 (by decide) (by decide) (by decide) (by decide)⟩

/-- C7: COUNTEREXAMPLE.  `C7_rq` carries the secret with hash 1 in both
its input and output arrays, and that input is currently unspent in
`C7_state`, yet the reply error is "missing" (the input-existence loop
runs before the output-reuse loop and trips on the other, nonexistent
input), not "reuse". -/
theorem C7_reuse_error_counterexample :
    (1, 5) ∈ C7_rq.inputs ∧ (1, 5) ∈ C7_rq.outputs ∧
    lookupAmount C7_state.unspent 1 = some 5 ∧
    replaceHandler C7_state C7_rq = (jsonRPCError "missing", C7_state) ∧
    jsonRPCError "missing" ≠ jsonRPCError "reuse" := by decide

/-- C7 (amended): every /replace validation failure yields HTTP 500
with body status "error" and an error string, leaving the state
untouched; and a request that repeats an unspent input among its
outputs draws the "reuse" error provided every other check passes too:
terms accepted, no duplicate hashes inside either array, positive
amounts, balanced totals within range, and every input present with
its exact amount. -/
theorem C7_error_replies :
    (∀ (st : ServerState) (rq : ReplaceRequest) (e : String),
      replaceExec st rq = .error e →
      replaceHandler st rq = (jsonRPCError e, st) ∧
      (jsonRPCError e).status = 500 ∧ (jsonRPCError e).bodyStatus = "error" ∧
      (jsonRPCError e).bodyError ≠ none) ∧
    (∀ (st : ServerState) (rq : ReplaceRequest) (p : Nat × Int),
      rq.terms = true → (keys rq.inputs).Nodup → (keys rq.outputs).Nodup →
      (∀ q ∈ rq.inputs, 1 ≤ q.2) → (∀ q ∈ rq.outputs, 1 ≤ q.2) →
      sumAmounts rq.inputs ≤ int64max → sumAmounts rq.outputs = sumAmounts rq.inputs →
      (∀ q ∈ rq.inputs, lookupAmount st.unspent q.1 = some q.2) →
      p ∈ rq.inputs → p ∈ rq.outputs →
      replaceHandler st rq = (jsonRPCError "reuse", st)) := by
  constructor
  · intro st rq e h
    refine ⟨?_, rfl, rfl, ?_⟩
    · unfold replaceHandler
      rw [h]
    · unfold jsonRPCError
      simp
  · intro st rq p hterms hnodin hnodout hposin hposout hsumle hsumeq hfound hpin hpout
    have hin : sumWithCheck rq.inputs 0 = some (0 + sumAmounts rq.inputs) :=
      sumWithCheck_complete rq.inputs 0 hposin (le_refl 0) (by simpa using hsumle)
    have hout2 : sumWithCheck rq.outputs 0 = some (0 + sumAmounts rq.inputs) := by
      have h := sumWithCheck_complete rq.outputs 0 hposout (le_refl 0)
        (by simpa [hsumeq] using hsumle)
      rw [h, hsumeq]
    have hci : checkInputs st.unspent rq.inputs = none :=
      checkInputs_none_complete st.unspent rq.inputs hfound
    have hlp : (lookupAmount st.unspent p.1).isSome := by
      rw [hfound p hpin]
      rfl
    have hco : checkOutputs st.unspent "reuse" rq.outputs = some "reuse" :=
      checkOutputs_some_of_mem st.unspent "reuse" rq.outputs p hpout hlp
    have hexec : replaceExec st rq = .error "reuse" := by
      unfold replaceExec
      rw [if_neg (not_not_intro hterms), if_neg (not_not_intro hnodin)]
      simp only [hin]
      rw [if_neg (not_not_intro hnodout)]
      simp only [hout2]
      rw [if_neg (show ¬(0 + sumAmounts rq.inputs ≠ 0 + sumAmounts rq.inputs) by simp)]
      simp only [hci, hco]
    unfold replaceHandler
    rw [hexec]

/-- Witness for C7 (amended): part one at the "missing" failure of
`C7_rq` on `C7_state`, part two at the one-input-one-output identity
replacement of the unspent hash 1. -/
theorem C7_error_replies_witness :
    (replaceExec C7_state C7_rq = .error "missing" ∧
     replaceHandler C7_state C7_rq = (jsonRPCError "missing", C7_state)) ∧
    (replaceHandler C7_state ⟨true, [(1, 5)], [(1, 5)]⟩ = (jsonRPCError "reuse", C7_state)) :=
  ⟨⟨by decide,
    (C7_error_replies.1 C7_state C7_rq "missing" (by decide)).1⟩,
   C7_error_replies.2 C7_state ⟨true, [(1, 5)], [(1, 5)]⟩ (1, 5) (by decide) (by decide)
     (by decide) (by decide) (by decide) (by decide) (by decide) (by decide) (by decide)
     (by decide)⟩

/-- C6: COUNTEREXAMPLE.  At report count 256 with the actual elapsed
time exactly equal to the expected window (128 intervals of 10 s in
nanoseconds) and total circulation exactly equal to expected
circulation, the claim's first rule fires (actual at most expected,
total at least expected circulation) and demands current + 1 = 29, but
both conditional updates of the source fire and cancel: the kernel
returns 28. -/
theorem C6_boundary :
    256 % REPORTS_PER_INTERVAL = 0 ∧
    (1280000000000 : Int) ≤ (LOOK_BACK_WINDOW : Int) * 10000000000 ∧
    (7 : Nat) ≤ 7 ∧
    nextDifficultyKernel 28 256 1280000000000 7 7 = 28 ∧ (28 : Nat) ≠ 28 + 1 := by decide

/-- C6 (amended): off the 128-report boundary the difficulty is
unchanged; on the boundary, against the expected duration of
`look_back_window` 10-second intervals (window 127 exactly at count
128), being early and at-or-ahead of the issuance curve — and not
simultaneously late-and-behind — increments, being late and at-or-behind
— and not simultaneously early-and-ahead — decrements, and when both or
neither rule fires the difficulty is unchanged (both rules fire exactly
on the ties); the duration measured by the server is from the report
`look_back_window` places back in the just-extended history. -/
theorem C6_difficulty_adjustment (current n : Nat) (actual expected : Int) (tc ec : Nat)
    (h1 : 1 ≤ current) (h2 : current + 1 < 4294967296)
    (hexp : expected =
      ((if n = 128 then (LOOK_BACK_WINDOW - 1 : Nat) else LOOK_BACK_WINDOW) : Int) *
        10000000000) :
    (n % REPORTS_PER_INTERVAL ≠ 0 → nextDifficultyKernel current n actual tc ec = current) ∧
    (n % REPORTS_PER_INTERVAL = 0 →
      ((actual ≤ expected ∧ ec ≤ tc) ∧ ¬(expected ≤ actual ∧ tc ≤ ec) →
        nextDifficultyKernel current n actual tc ec = current + 1) ∧
      ((expected ≤ actual ∧ tc ≤ ec) ∧ ¬(actual ≤ expected ∧ ec ≤ tc) →
        nextDifficultyKernel current n actual tc ec = current - 1) ∧
      ((actual ≤ expected ∧ ec ≤ tc) ∧ (expected ≤ actual ∧ tc ≤ ec) →
        nextDifficultyKernel current n actual tc ec = current) ∧
      (¬(actual ≤ expected ∧ ec ≤ tc) ∧ ¬(expected ≤ actual ∧ tc ≤ ec) →
        nextDifficultyKernel current n actual tc ec = current)) ∧
    (∀ (times : List Int) (received : Int),
      nextDifficultyOfHistory current times received tc ec =
        nextDifficultyKernel current times.length
          (received - times.getD (times.length - 1 -
            (if times.length = 128 then LOOK_BACK_WINDOW - 1 else LOOK_BACK_WINDOW)) 0)
          tc ec) := by
  subst hexp
  refine ⟨?_, ?_, fun times received => rfl⟩
  · intro hne
    unfold nextDifficultyKernel
    rw [if_neg hne]
  · intro hmod
    refine ⟨?_, ?_, ?_, ?_⟩
    · rintro ⟨hup, hnotdown⟩
      unfold nextDifficultyKernel
      rw [if_pos hmod]
      simp only [apply_ite (fun x : Nat => (x : Int))]
      rw [if_pos hup, if_neg hnotdown]
      unfold incWrap32
      omega
    · rintro ⟨hdown, hnotup⟩
      unfold nextDifficultyKernel
      rw [if_pos hmod]
      simp only [apply_ite (fun x : Nat => (x : Int))]
      rw [if_neg hnotup, if_pos hdown]
      unfold decWrap32
      omega
    · rintro ⟨hup, hdown⟩
      unfold nextDifficultyKernel
      rw [if_pos hmod]
      simp only [apply_ite (fun x : Nat => (x : Int))]
      rw [if_pos hup, if_pos hdown]
      unfold decWrap32 incWrap32
      omega
    · rintro ⟨hnotup, hnotdown⟩
      unfold nextDifficultyKernel
      rw [if_pos hmod]
      simp only [apply_ite (fun x : Nat => (x : Int))]
      rw [if_neg hnotup, if_neg hnotdown]

/-- Witness for C6 (amended): one nanosecond early at report 256 with
circulation ahead of the curve increments 28 to 29. -/
theorem C6_difficulty_adjustment_witness :
    (1 ≤ 28 ∧ 28 + 1 < 4294967296 ∧
     (1280000000000 : Int) =
       ((if (256 : Nat) = 128 then (LOOK_BACK_WINDOW - 1 : Nat) else LOOK_BACK_WINDOW) : Int) *
         10000000000) ∧
    nextDifficultyKernel 28 256 1279999999999 7 6 = 28 + 1 :=
  ⟨⟨by decide, by decide, by decide⟩,
   ((C6_difficulty_adjustment 28 256 1279999999999 1280000000000 7 6 (by decide) (by decide)
      (by decide)).2.1 (by decide)).1 ⟨⟨by decide, by decide⟩, by decide⟩⟩

theorem addSecret_spec (st : WalletState) (ts : Int) (sk : WSecret) (mine sweep : Bool) :
    addSecretToWallet st ts sk mine sweep =
      (if st.secrets.any (fun r => r.secret == sk.sk) then 0 else st.secrets.length + 1,
       { st with
         log := st.log ++ [⟨ts, hashTypeString (get_hash_type mine sweep), claimCode sk⟩],
         secrets := if st.secrets.any (fun r => r.secret == sk.sk) then st.secrets
           else st.secrets ++ [⟨st.secrets.length + 1, ts, sk.sk, mine, sweep⟩] }) := by
  unfold addSecretToWallet
  split
  next hc => rfl
  next hc => rfl

theorem addOutput_spec (st : WalletState) (ts : Int) (h : Nat) (a : Int)
    (sid : Option Nat) (sp : Bool) :
    addOutputToWallet st ts h a sid sp =
      (st.outputs.length + 1,
       { st with outputs := st.outputs ++ [⟨st.outputs.length + 1, ts, h, sid, a, sp⟩] }) := rfl

/-- Evaluation of Wallet::ReplaceWebcash on the one-input/one-output
call made by Wallet::Insert, with a fresh positive amount and an HTTP
200 reply: the input row is marked spent, the change output row is
appended, and exactly one (secret, output-id) pair is returned. -/
theorem replaceW_singleton (A : WalletState) (ts : Int) (oid hsh : Nat) (amt : Int)
    (skText chText : List Char) (cid : Nat) (hashFn : List Char → Nat)
    (hamt : ¬ amt < 1) :
    replaceWebcashW A ts [⟨oid, hsh, amt, some skText, false⟩] [(⟨cid, chText⟩, amt)]
      (some 200) hashFn =
      ([((⟨cid, chText⟩ : WSecObj), A.outputs.length + 1)],
       { A with outputs :=
           (A.outputs.map fun r => if r.id = oid then { r with spent := true } else r) ++
           [⟨A.outputs.length + 1, ts, hashFn chText, some cid, amt, false⟩] }) := by
  simp [replaceWebcashW, hamt, addOutput_spec]

/-- C5: when Wallet::Insert returns true, the recovery log has gained
a line with the claim code of the inserted secret and a line with the
claim code of the change secret carrying the identical amount, some
output row carrying the secret's public hash and amount is marked
spent, and a new unspent output row with the same amount exists. -/
theorem C5_wallet_insert (st : WalletState) (now : Int) (sk : WSecret) (mine : Bool)
    (changeSk : List Char) (serverStatus : Option Nat) (hashFn : List Char → Nat)
    (st2 : WalletState)
    (h : walletInsert st now sk mine changeSk serverStatus hashFn = (true, st2)) :
    (⟨now, hashTypeString (get_hash_type mine true), claimCode sk⟩ : LogLine) ∈ st2.log ∧
    (⟨now, hashTypeString (get_hash_type true false), claimCode ⟨changeSk, sk.amount⟩⟩ : LogLine)
      ∈ st2.log ∧
    (∃ r ∈ st2.outputs, r.hash = hashFn sk.sk ∧ r.amount = sk.amount ∧ r.spent = true) ∧
    (∃ r ∈ st2.outputs, r.amount = sk.amount ∧ r.spent = false) := by
  simp only [walletInsert, addSecret_spec, addOutput_spec] at h
  by_cases hdup1 : (st.secrets.any fun r => r.secret == sk.sk) = true
  · simp only [if_pos hdup1] at h
    simp at h
  simp only [if_neg hdup1] at h
  simp only [if_neg (by omega : ¬(st.secrets.length + 1 = 0))] at h
  simp only [if_neg (by omega : ¬(st.outputs.length + 1 = 0))] at h
  by_cases hdup2 : ((st.secrets ++
      [(⟨st.secrets.length + 1, now, sk.sk, mine, true⟩ : SecretRow)]).any
        fun r => r.secret == changeSk) = true
  · simp only [if_pos hdup2] at h
    simp at h
  simp only [if_neg hdup2] at h
  simp only [if_neg (by omega :
    ¬((st.secrets ++ [(⟨st.secrets.length + 1, now, sk.sk, mine, true⟩ : SecretRow)]).length
        + 1 = 0))] at h
  rcases serverStatus with _ | status
  · simp [replaceWebcashW] at h
  by_cases hst : status = 200
  case neg =>
    simp [replaceWebcashW, hst] at h
  subst hst
  by_cases hamt : sk.amount < 1
  · simp [replaceWebcashW, hamt] at h
  rw [replaceW_singleton _ _ _ _ _ _ _ _ _ hamt] at h
  simp at h
  subst h
  refine ⟨by simp, by simp, ?_, ?_⟩
  · exact ⟨⟨st.outputs.length + 1, now, hashFn sk.sk, some (st.secrets.length + 1),
      sk.amount, true⟩, by simp, rfl, rfl, rfl⟩
  · exact ⟨⟨st.outputs.length + 1 + 1, now, hashFn changeSk, some (st.secrets.length + 1 + 1),
      sk.amount, false⟩, by simp, rfl, rfl⟩

/-- Witness for C5 on the empty wallet: secret "a" of amount 7, change
secret "b", server reply 200, hashing by length. -/
theorem C5_wallet_insert_witness :
    (⟨5, hashTypeString (get_hash_type false true), claimCode ⟨['a'], 7⟩⟩ : LogLine) ∈
      (walletInsert emptyWallet 5 ⟨['a'], 7⟩ false ['b'] (some 200) fun s => s.length).2.log ∧
    (⟨5, hashTypeString (get_hash_type true false), claimCode ⟨['b'], 7⟩⟩ : LogLine) ∈
      (walletInsert emptyWallet 5 ⟨['a'], 7⟩ false ['b'] (some 200) fun s => s.length).2.log ∧
    (∃ r ∈ (walletInsert emptyWallet 5 ⟨['a'], 7⟩ false ['b'] (some 200)
        fun s => s.length).2.outputs, r.hash = 1 ∧ r.amount = 7 ∧ r.spent = true) ∧
    (∃ r ∈ (walletInsert emptyWallet 5 ⟨['a'], 7⟩ false ['b'] (some 200)
        fun s => s.length).2.outputs, r.amount = 7 ∧ r.spent = false) :=
  C5_wallet_insert emptyWallet 5 ⟨['a'], 7⟩ false ['b'] (some 200) (fun s => s.length) _ rfl
